import Mathlib

/-!
Verification of the `indexedlog` index entry format
(`src/lib/indexedlog/src/index.rs`).

Buffers are modelled as `List Nat` (byte lists), `u64` values as `Nat`
with explicit bounds where they matter.  Fallible reads return a
`ReadRes`; a Rust panic (e.g. `unwrap` on a missing dirty offset, or a
slice-indexing panic) is modelled by a distinguished outcome separate
from a returned error.
-/

namespace IndexedLog

/-! ## VLQ codec

The `vlqencoding` crate is a dependency of `index.rs` that is not part
of the sources under review; it is modelled from the spec. -/

/-- Fuel-driven worker for `write_vlq`; `fuel ≥ n` always suffices
(the quotient shrinks strictly faster than the fuel). -/
def writeVlqF : Nat → Nat → List Nat
  | 0, n => [n]
  | fuel + 1, n =>
    if n < 128 then [n]
    else (n % 128 + 128) :: writeVlqF fuel (n / 128)

/-- Modelled from the spec: unsigned LEB128-style variable-length
encoding, seven payload bits per byte (least significant first), high
bit set on continuation; emits the minimum number of bytes.
(`VLQEncode::write_vlq` of the `vlqencoding` crate.) -/
def write_vlq (n : Nat) : List Nat := writeVlqF n n

/-- Modelled from the spec: VLQ decoding over the remaining buffer;
returns the decoded value and the number of bytes consumed, or fails
when the buffer ends before a terminating byte.
(Helper for `VLQDecodeAt::read_vlq_at`.) -/
def read_vlq : List Nat → Option (Nat × Nat)
  | [] => none
  | b :: rest =>
    if b < 128 then some (b, 1)
    else
      match read_vlq rest with
      | none => none
      | some (v, l) => some ((b - 128) + 128 * v, l + 1)

/-- Modelled from the spec: decoding accepts a buffer and a starting
position (`VLQDecodeAt::read_vlq_at` of the `vlqencoding` crate). -/
def read_vlq_at (buf : List Nat) (pos : Nat) : Option (Nat × Nat) :=
  read_vlq (buf.drop pos)

theorem writeVlqF_ne_nil (fuel n : Nat) : writeVlqF fuel n ≠ [] := by
  cases fuel with
  | zero => simp [writeVlqF]
  | succ fuel => rw [writeVlqF]; split <;> simp

theorem write_vlq_ne_nil (n : Nat) : write_vlq n ≠ [] :=
  writeVlqF_ne_nil n n

theorem write_vlq_length_pos (n : Nat) : 1 ≤ (write_vlq n).length := by
  cases h : write_vlq n with
  | nil => exact absurd h (write_vlq_ne_nil n)
  | cons a l => simp

theorem read_writeVlqF (fuel : Nat) :
    ∀ n tl, n ≤ fuel ∨ n < 128 →
      read_vlq (writeVlqF fuel n ++ tl) = some (n, (writeVlqF fuel n).length) := by
  induction fuel with
  | zero =>
    intro n tl hn
    have : n < 128 := by omega
    simp [writeVlqF, read_vlq, this]
  | succ fuel ih =>
    intro n tl hn
    rw [writeVlqF]
    by_cases h : n < 128
    · simp [h, read_vlq]
    · have hrec := ih (n / 128) tl (by omega)
      simp only [if_neg h, List.cons_append, read_vlq]
      rw [if_neg (by omega), hrec]
      simp only [Option.some.injEq, Prod.mk.injEq, List.length_cons]
      constructor
      · omega
      · trivial

/-- Core VLQ round-trip: decoding the encoding of `n` (followed by
anything) recovers `n` and consumes exactly the encoding. -/
theorem read_write_vlq (n : Nat) (tl : List Nat) :
    read_vlq (write_vlq n ++ tl) = some (n, (write_vlq n).length) :=
  read_writeVlqF n n tl (Or.inl le_rfl)

theorem writeVlqF_length_le (fuel : Nat) :
    ∀ k n, 1 ≤ k → n < 128 ^ k → n ≤ fuel ∨ n < 128 →
      (writeVlqF fuel n).length ≤ k := by
  induction fuel with
  | zero => intro k n hk _ _; simp [writeVlqF]; omega
  | succ fuel ih =>
    intro k n hk hn hf
    rw [writeVlqF]
    by_cases h : n < 128
    · simp [h]; omega
    · rcases Nat.lt_or_ge k 2 with hk2 | hk2
      · interval_cases k
        · norm_num at hn; omega
      · have hdiv : n / 128 < 128 ^ (k - 1) := by
          rw [Nat.div_lt_iff_lt_mul (by omega)]
          calc n < 128 ^ k := hn
            _ = 128 ^ (k - 1) * 128 := by
              rw [← pow_succ]
              congr 1
              omega
        have := ih (k - 1) (n / 128) (by omega) hdiv (by omega)
        simp only [if_neg h, List.length_cons]
        omega

/-- Length bound: a value below `128 ^ k` encodes in at most `k` bytes. -/
theorem write_vlq_length_le (k : Nat) (hk : 1 ≤ k) :
    ∀ n, n < 128 ^ k → (write_vlq n).length ≤ k := fun n hn =>
  writeVlqF_length_le n k n hk hn (Or.inl le_rfl)

/-! ## List helpers -/

theorem drop_append_len (p l : List Nat) (k : Nat) :
    (p ++ l).drop (p.length + k) = l.drop k := by
  induction p with
  | nil => simp
  | cons a p ih => simp [Nat.succ_add, ih]

theorem get_append_len (p l : List Nat) (k : Nat) :
    (p ++ l)[p.length + k]? = l[k]? := by
  induction p with
  | nil => simp
  | cons a p ih => simpa [Nat.succ_add] using ih

theorem set_append_left (p l : List Nat) (k : Nat) (a : Nat) (h : k < p.length) :
    (p ++ l).set k a = p.set k a ++ l := by
  induction p generalizing k with
  | nil => simp at h
  | cons b p ih =>
    cases k with
    | zero => simp
    | succ k => simp [List.set, ih k (by simpa using h)]

theorem getD_set_self (l : List Nat) (i a : Nat) (h : i < l.length) :
    (l.set i a).getD i 0 = a := by
  induction l generalizing i with
  | nil => simp at h
  | cons b l ih =>
    cases i with
    | zero => simp [List.getD]
    | succ i => simpa [List.getD] using ih i (by simpa using h)

theorem getD_set_ne (l : List Nat) (i j a : Nat) (h : i ≠ j) :
    (l.set i a).getD j 0 = l.getD j 0 := by
  induction l generalizing i j with
  | nil => simp
  | cons b l ih =>
    cases i with
    | zero => cases j with
      | zero => omega
      | succ j => simp [List.getD]
    | succ i =>
      cases j with
      | zero => simp [List.getD]
      | succ j => simpa [List.getD] using ih i j (by omega)

theorem ext_getD (l₁ l₂ : List Nat) (hlen : l₁.length = l₂.length)
    (h : ∀ i, i < l₁.length → l₁.getD i 0 = l₂.getD i 0) : l₁ = l₂ := by
  induction l₁ generalizing l₂ with
  | nil => cases l₂ with
    | nil => rfl
    | cons b l => simp at hlen
  | cons a l₁ ih =>
    cases l₂ with
    | nil => simp at hlen
    | cons b l₂ =>
      have h0 := h 0 (by simp)
      simp [List.getD] at h0
      subst h0
      have := ih l₂ (by simpa using hlen)
        (fun i hi => by simpa [List.getD] using h (i + 1) (by simpa using Nat.succ_lt_succ hi))
      simp [this]

/-! ## File-format structures and offset discipline (`index.rs`) -/

/-- `DIRTY_OFFSET`: offsets at or above it refer to in-memory entries. -/
def DIRTY_OFFSET : Nat := 2 ^ 63

def TYPE_HEAD : Nat := 0
def TYPE_ROOT : Nat := 1
def TYPE_RADIX : Nat := 2
def TYPE_LEAF : Nat := 3
def TYPE_LINK : Nat := 4
def TYPE_KEY : Nat := 5

structure Radix where
  offsets : List Nat
  link_offset : Nat
deriving DecidableEq

structure Leaf where
  key_offset : Nat
  link_offset : Nat
deriving DecidableEq

structure Key where
  key : List Nat
deriving DecidableEq

structure Link where
  value : Nat
  next_link_offset : Nat
deriving DecidableEq

structure Root where
  radix_offset : Nat
deriving DecidableEq

/-- `translate_offset`: convert a possibly dirty offset to a clean one.
The `HashMap` is modelled as `Nat → Option Nat`; the Rust `unwrap`
panic on a missing dirty key is modelled by `none`. -/
def translate_offset (v : Nat) (offset_map : Nat → Option Nat) : Option Nat :=
  if DIRTY_OFFSET ≤ v then offset_map v else some v

/-- Outcome of a reader: a value, an `InvalidData` error, or a panic
(`fatal`, e.g. a slice-indexing panic). -/
inductive ReadRes (α : Type) where
  | ok : α → ReadRes α
  | err : ReadRes α
  | fatal : ReadRes α
deriving DecidableEq

/-- `check_type`: check the type byte of an on-disk entry. -/
def check_type (buf : List Nat) (offset : Nat) (expected : Nat) : ReadRes Unit :=
  match buf[offset]? with
  | none => .err
  | some t => if t = expected then .ok () else .err

/-- Rust `buf.get(start..start + len)`: `some` slice iff fully in bounds. -/
def getRange (buf : List Nat) (start len : Nat) : Option (List Nat) :=
  if start + len ≤ buf.length then some ((buf.drop start).take len) else none

/-! ## Readers -/

/-- The child loop of `Radix::read_from`: for each `i` in `0..16`, a
non-zero jump-table byte must equal the current parse position, and the
child offset VLQ is decoded there.  `jt[i]` is Rust slice indexing,
which panics (`fatal`) when out of bounds. -/
def radixReadLoop (buf : List Nat) (offset : Nat) (jt : List Nat) :
    List Nat → Nat → List Nat → ReadRes (List Nat × Nat)
  | [], pos, offsets => .ok (offsets, pos)
  | i :: rest, pos, offsets =>
    match jt[i]? with
    | none => .fatal
    | some b =>
      if b ≠ 0 then
        if b ≠ pos then .err
        else
          match read_vlq_at buf (offset + pos) with
          | none => .err
          | some (v, l) => radixReadLoop buf offset jt rest (pos + l) (offsets.set i v)
      else radixReadLoop buf offset jt rest pos offsets

/-- `Radix::read_from`. -/
def Radix.read_from (buf : List Nat) (offset : Nat) : ReadRes Radix :=
  match check_type buf offset TYPE_RADIX with
  | .ok _ =>
    match getRange buf (offset + 1) 16 with
    | none => .err
    | some jumptable =>
      match read_vlq_at buf (offset + 17) with
      | none => .err
      | some (link_offset, len) =>
        match radixReadLoop buf offset jumptable (List.range 16) (17 + len)
            (List.replicate 16 0) with
        | .ok (offsets, _) => .ok ⟨offsets, link_offset⟩
        | .err => .err
        | .fatal => .fatal
  | .err => .err
  | .fatal => .fatal

/-- `Leaf::read_from`. -/
def Leaf.read_from (buf : List Nat) (offset : Nat) : ReadRes Leaf :=
  match check_type buf offset TYPE_LEAF with
  | .ok _ =>
    match read_vlq_at buf (offset + 1) with
    | none => .err
    | some (key_offset, len) =>
      match read_vlq_at buf (offset + len + 1) with
      | none => .err
      | some (link_offset, _) => .ok ⟨key_offset, link_offset⟩
  | .err => .err
  | .fatal => .fatal

/-- `Link::read_from`. -/
def Link.read_from (buf : List Nat) (offset : Nat) : ReadRes Link :=
  match check_type buf offset TYPE_LINK with
  | .ok _ =>
    match read_vlq_at buf (offset + 1) with
    | none => .err
    | some (value, len) =>
      match read_vlq_at buf (offset + len + 1) with
      | none => .err
      | some (next_link_offset, _) => .ok ⟨value, next_link_offset⟩
  | .err => .err
  | .fatal => .fatal

/-! ## Writers

A writer returns the emitted bytes, or `none` for the `unwrap` panic of
`translate_offset` on a dirty offset missing from the map. -/

/-- The child loop of `Radix::write_to`: for each `i` in `0..16` with a
non-zero offset, backfill the jump-table byte at `1 + i` with the
current buffer length (`as u8`, hence `% 256`) and append the VLQ of
the translated offset. -/
def radixWriteLoop (r : Radix) (offset_map : Nat → Option Nat) :
    List Nat → List Nat → Option (List Nat)
  | [], buf => some buf
  | i :: rest, buf =>
    let v := r.offsets.getD i 0
    if v = 0 then radixWriteLoop r offset_map rest buf
    else
      match translate_offset v offset_map with
      | none => none
      | some w =>
        radixWriteLoop r offset_map rest
          ((buf.set (1 + i) (buf.length % 256)) ++ write_vlq w)

/-- `Radix::write_to`. -/
def Radix.write_to (r : Radix) (offset_map : Nat → Option Nat) : Option (List Nat) :=
  match translate_offset r.link_offset offset_map with
  | none => none
  | some link =>
    radixWriteLoop r offset_map (List.range 16)
      (TYPE_RADIX :: List.replicate 16 0 ++ write_vlq link)

/-- `Leaf::write_to`. -/
def Leaf.write_to (lf : Leaf) (offset_map : Nat → Option Nat) : Option (List Nat) :=
  match translate_offset lf.key_offset offset_map with
  | none => none
  | some k =>
    match translate_offset lf.link_offset offset_map with
    | none => none
    | some l => some (TYPE_LEAF :: write_vlq k ++ write_vlq l)

/-- `Link::write_to`: the `value` field is emitted verbatim; only
`next_link_offset` is translated. -/
def Link.write_to (lk : Link) (offset_map : Nat → Option Nat) : Option (List Nat) :=
  match translate_offset lk.next_link_offset offset_map with
  | none => none
  | some nx => some (TYPE_LINK :: write_vlq lk.value ++ write_vlq nx)

/-- Modelled from the spec: `Key` serialization, absent from
`index.rs`.  Layout per the spec: `0x05`, `VLQ(key_len)`, raw key bytes. -/
def Key.write_to (k : Key) : List Nat :=
  TYPE_KEY :: write_vlq k.key.length ++ k.key

/-- Modelled from the spec: `Key` deserialization, absent from
`index.rs`: validate the type byte, read the length VLQ, read that many
raw bytes (failing when the buffer is too short). -/
def Key.read_from (buf : List Nat) (offset : Nat) : ReadRes Key :=
  match check_type buf offset TYPE_KEY with
  | .ok _ =>
    match read_vlq_at buf (offset + 1) with
    | none => .err
    | some (klen, len) =>
      match getRange buf (offset + 1 + len) klen with
      | none => .err
      | some bytes => .ok ⟨bytes⟩
  | .err => .err
  | .fatal => .fatal

/-- Modelled from the spec: `Root` serialization, absent from
`index.rs`.  Layout per the spec: `0x01`, `VLQ(radix_offset)`, one
trailing byte holding the total record length (discriminator and
length byte included); `radix_offset` is translated at flush. -/
def Root.write_to (rt : Root) (offset_map : Nat → Option Nat) : Option (List Nat) :=
  match translate_offset rt.radix_offset offset_map with
  | none => none
  | some ro => some (TYPE_ROOT :: write_vlq ro ++ [(write_vlq ro).length + 2])

/-- Modelled from the spec: `Root` deserialization, absent from
`index.rs`: validate the type byte, read `radix_offset`, and confirm
the trailing length byte matches the record length. -/
def Root.read_from (buf : List Nat) (offset : Nat) : ReadRes Root :=
  match check_type buf offset TYPE_ROOT with
  | .ok _ =>
    match read_vlq_at buf (offset + 1) with
    | none => .err
    | some (ro, len) =>
      match buf[offset + 1 + len]? with
      | none => .err
      | some b => if b = len + 2 then .ok ⟨ro⟩ else .err
  | .err => .err
  | .fatal => .fatal

/-! ## Closed-form layout of a serialized Radix record

`pres i` says whether child `i` is present (its pre-translation offset
is non-zero) and `val i` is the value actually emitted for child `i`
(its translated offset). -/

/-- Concatenated VLQs of the present children, in index order. -/
def childPayload (pres : Nat → Bool) (val : Nat → Nat) : List Nat → List Nat
  | [] => []
  | i :: rest =>
    (if pres i then write_vlq (val i) else []) ++ childPayload pres val rest

/-- The jump-table backfill: starting at byte position `base`, each
present child records its position (`% 256` for the `u8` cast) and
advances `base` by its VLQ length. -/
def jtApply (pres : Nat → Bool) (val : Nat → Nat) : Nat → List Nat → List Nat → List Nat
  | _, [], jt => jt
  | base, i :: rest, jt =>
    if pres i then
      jtApply pres val (base + (write_vlq (val i)).length) rest (jt.set i (base % 256))
    else jtApply pres val base rest jt

/-- The reader's accumulation of child offsets into the `offsets` array. -/
def applyVals (pres : Nat → Bool) (val : Nat → Nat) : List Nat → List Nat → List Nat
  | [], acc => acc
  | i :: rest, acc =>
    if pres i then applyVals pres val rest (acc.set i (val i))
    else applyVals pres val rest acc

theorem childPayload_append (pres : Nat → Bool) (val : Nat → Nat) (l₁ l₂ : List Nat) :
    childPayload pres val (l₁ ++ l₂) =
      childPayload pres val l₁ ++ childPayload pres val l₂ := by
  induction l₁ with
  | nil => simp [childPayload]
  | cons i rest ih => simp [childPayload, ih]

theorem childPayload_length_le (pres : Nat → Bool) (val : Nat → Nat) (c : Nat) :
    ∀ is : List Nat, (∀ i ∈ is, pres i = true → (write_vlq (val i)).length ≤ c) →
      (childPayload pres val is).length ≤ c * is.length := by
  intro is
  induction is with
  | nil => simp [childPayload]
  | cons i rest ih =>
    intro h
    have hrest := ih (fun j hj => h j (List.mem_cons_of_mem i hj))
    by_cases hp : pres i = true
    · have := h i (List.mem_cons_self i rest) hp
      simp only [childPayload, hp, if_true, List.length_append, List.length_cons]
      calc (write_vlq (val i)).length + (childPayload pres val rest).length
          ≤ c + c * rest.length := by omega
        _ = c * (rest.length + 1) := by ring
    · simp only [childPayload, hp, if_false, List.nil_append, List.length_cons]
      calc (childPayload pres val rest).length ≤ c * rest.length := hrest
        _ ≤ c * (rest.length + 1) := by nlinarith

theorem jtApply_length (pres : Nat → Bool) (val : Nat → Nat) :
    ∀ (is : List Nat) (base : Nat) (jt : List Nat),
      (jtApply pres val base is jt).length = jt.length := by
  intro is
  induction is with
  | nil => simp [jtApply]
  | cons i rest ih =>
    intro base jt
    by_cases hp : pres i = true <;> simp [jtApply, hp, ih]

theorem jtApply_getD_not_mem (pres : Nat → Bool) (val : Nat → Nat) :
    ∀ (is : List Nat) (base j : Nat) (jt : List Nat), j ∉ is →
      (jtApply pres val base is jt).getD j 0 = jt.getD j 0 := by
  intro is
  induction is with
  | nil => simp [jtApply]
  | cons i rest ih =>
    intro base j jt hj
    have hji : j ≠ i := fun h => hj (h ▸ List.mem_cons_self i rest)
    have hjrest : j ∉ rest := fun h => hj (List.mem_cons_of_mem i h)
    by_cases hp : pres i = true
    · simp only [jtApply, hp, if_true]
      rw [ih _ _ _ hjrest, getD_set_ne _ _ _ _ (fun h => hji h.symm)]
    · simp only [jtApply, hp, if_false]
      exact ih _ _ _ hjrest

theorem jtApply_append (pres : Nat → Bool) (val : Nat → Nat) :
    ∀ (l₁ l₂ : List Nat) (base : Nat) (jt : List Nat),
      jtApply pres val base (l₁ ++ l₂) jt =
        jtApply pres val (base + (childPayload pres val l₁).length) l₂
          (jtApply pres val base l₁ jt) := by
  intro l₁
  induction l₁ with
  | nil => simp [jtApply, childPayload]
  | cons i rest ih =>
    intro l₂ base jt
    by_cases hp : pres i = true
    · simp only [List.cons_append, jtApply, hp, if_true, childPayload,
        List.length_append]
      rw [show (rest.append l₂) = rest ++ l₂ from rfl, ih]
      congr 1
      omega
    · simp only [List.cons_append, jtApply, hp, if_false, childPayload,
        List.nil_append]
      exact ih _ _ _

theorem getD_replicate_zero : ∀ (n j : Nat), (List.replicate n (0 : Nat)).getD j 0 = 0 := by
  intro n
  induction n with
  | zero => simp
  | succ n ih => intro j; cases j <;> simp [List.replicate, List.getD, ih]

theorem get?_eq_getD (l : List Nat) (j : Nat) (h : j < l.length) :
    l[j]? = some (l.getD j 0) := by
  induction l generalizing j with
  | nil => simp at h
  | cons a l ih =>
    cases j with
    | zero => simp [List.getD]
    | succ j => simpa [List.getD] using ih j (by simpa using h)

/-- Phase A: the writer loop, on a buffer already holding the type
byte, a 16-byte jump-table region and `V`, produces exactly the
closed-form layout. -/
theorem radixWriteLoop_eq (r : Radix) (m : Nat → Option Nat)
    (pres : Nat → Bool) (val : Nat → Nat) :
    ∀ (is : List Nat) (jt V : List Nat), jt.length = 16 → (∀ i ∈ is, i < 16) →
      (∀ i ∈ is, pres i = decide (r.offsets.getD i 0 ≠ 0)) →
      (∀ i ∈ is, pres i = true →
        translate_offset (r.offsets.getD i 0) m = some (val i)) →
      radixWriteLoop r m is (TYPE_RADIX :: jt ++ V) =
        some (TYPE_RADIX :: jtApply pres val (17 + V.length) is jt ++ V ++
          childPayload pres val is) := by
  intro is
  induction is with
  | nil => intro jt V _ _ _ _; simp [radixWriteLoop, jtApply, childPayload]
  | cons i rest ih =>
    intro jt V hjt his hpres hval
    have hi : i < 16 := his i (List.mem_cons_self i rest)
    have hpi := hpres i (List.mem_cons_self i rest)
    by_cases hz : r.offsets.getD i 0 = 0
    · have hpf : pres i = false := by
        rw [hpi]
        exact decide_eq_false (not_not_intro hz)
      simp only [radixWriteLoop]
      rw [if_pos hz]
      rw [ih jt V hjt (fun j hj => his j (List.mem_cons_of_mem i hj))
        (fun j hj => hpres j (List.mem_cons_of_mem i hj))
        (fun j hj => hval j (List.mem_cons_of_mem i hj))]
      simp [jtApply, childPayload, hpf]
    · have hpt : pres i = true := by
        rw [hpi]
        exact decide_eq_true hz
      have htr := hval i (List.mem_cons_self i rest) hpt
      simp only [radixWriteLoop]
      rw [if_neg hz, htr]
      have hlen : (TYPE_RADIX :: jt ++ V).length = 17 + V.length := by
        simp [hjt]
        omega
      have hset : (TYPE_RADIX :: jt ++ V).set (1 + i) ((17 + V.length) % 256) =
          TYPE_RADIX :: jt.set i ((17 + V.length) % 256) ++ V := by
        have h1i : 1 + i = i + 1 := by omega
        rw [h1i, show (TYPE_RADIX :: jt ++ V) = TYPE_RADIX :: (jt ++ V) from rfl,
          List.set_cons_succ, set_append_left _ _ _ _ (by omega)]
        rfl
      rw [hlen, hset]
      simp only [List.cons_append, List.append_assoc]
      rw [show TYPE_RADIX :: (jt.set i ((17 + V.length) % 256) ++ (V ++ write_vlq (val i))) =
        TYPE_RADIX :: jt.set i ((17 + V.length) % 256) ++ (V ++ write_vlq (val i)) from rfl]
      rw [ih (jt.set i ((17 + V.length) % 256)) (V ++ write_vlq (val i))
        (by simp [hjt]) (fun j hj => his j (List.mem_cons_of_mem i hj))
        (fun j hj => hpres j (List.mem_cons_of_mem i hj))
        (fun j hj => hval j (List.mem_cons_of_mem i hj))]
      simp only [jtApply, childPayload, hpt, if_true, List.length_append]
      rw [show 17 + (V.length + (write_vlq (val i)).length) =
        17 + V.length + (write_vlq (val i)).length from by omega]
      simp [List.append_assoc]

/-- Phase B: the reader loop, run against a buffer whose tail (from
`off + pos`) is the child payload and whose jump table is the
closed-form backfill, recovers exactly the present children. -/
theorem radixReadLoop_eq (full : List Nat) (off : Nat) (pres : Nat → Bool) (val : Nat → Nat) :
    ∀ (is : List Nat) (pos : Nat) (jtcur acc : List Nat),
      is.Nodup → (∀ i ∈ is, i < 16) →
      jtcur.length = 16 → acc.length = 16 →
      (∀ j ∈ is, jtcur.getD j 0 = 0) →
      18 ≤ pos → pos + (childPayload pres val is).length ≤ 255 →
      full.drop (off + pos) = childPayload pres val is →
      radixReadLoop full off (jtApply pres val pos is jtcur) is pos acc =
        .ok (applyVals pres val is acc, pos + (childPayload pres val is).length) := by
  intro is
  induction is with
  | nil =>
    intro pos jtcur acc _ _ _ _ _ _ _ _
    simp [radixReadLoop, jtApply, applyVals, childPayload]
  | cons i rest ih =>
    intro pos jtcur acc hnd his hjl hal hjz hpos hbound hdrop
    have hi : i < 16 := his i (List.mem_cons_self i rest)
    have hinr : i ∉ rest := (List.nodup_cons.mp hnd).1
    have hndr : rest.Nodup := (List.nodup_cons.mp hnd).2
    by_cases hp : pres i = true
    · have hpay : childPayload pres val (i :: rest) =
          write_vlq (val i) ++ childPayload pres val rest := by
        simp [childPayload, hp]
      have hposlt : pos < 256 := by
        have := hbound
        omega
      have hjtstep : jtApply pres val pos (i :: rest) jtcur =
          jtApply pres val (pos + (write_vlq (val i)).length) rest
            (jtcur.set i (pos % 256)) := by
        simp [jtApply, hp]
      have hJTlen : (jtApply pres val (pos + (write_vlq (val i)).length) rest
          (jtcur.set i (pos % 256))).length = 16 := by
        rw [jtApply_length]
        simp [hjl]
      have hbyte : (jtApply pres val (pos + (write_vlq (val i)).length) rest
          (jtcur.set i (pos % 256)))[i]? = some pos := by
        rw [get?_eq_getD _ _ (by omega), jtApply_getD_not_mem _ _ _ _ _ _ hinr,
          getD_set_self _ _ _ (by omega), Nat.mod_eq_of_lt hposlt]
      have hvlq : read_vlq_at full (off + pos) =
          some (val i, (write_vlq (val i)).length) := by
        rw [read_vlq_at, hdrop, hpay]
        exact read_write_vlq _ _
      rw [hjtstep]
      simp only [radixReadLoop, hbyte]
      rw [if_pos (show pos ≠ 0 from by omega),
        if_neg (show ¬ pos ≠ pos from by simp)]
      simp only [hvlq]
      have hdrop2 : full.drop (off + (pos + (write_vlq (val i)).length)) =
          childPayload pres val rest := by
        have h1 : off + (pos + (write_vlq (val i)).length) =
            (off + pos) + (write_vlq (val i)).length := by omega
        rw [h1, ← List.drop_drop, hdrop, hpay]
        have h2 := drop_append_len (write_vlq (val i)) (childPayload pres val rest) 0
        simp only [Nat.add_zero, List.drop_zero] at h2
        exact h2
      rw [ih (pos + (write_vlq (val i)).length) (jtcur.set i (pos % 256))
        (acc.set i (val i)) hndr (fun j hj => his j (List.mem_cons_of_mem i hj))
        (by simp [hjl]) (by simp [hal])
        (fun j hj => by
          rw [getD_set_ne _ _ _ _ (fun h => hinr (by rw [h]; exact hj))]
          exact hjz j (List.mem_cons_of_mem i hj))
        (by omega)
        (by rw [hpay] at hbound; simp only [List.length_append] at hbound; omega)
        hdrop2]
      rw [hpay]
      simp only [applyVals, hp, if_true, List.length_append]
      congr 2
      omega
    · have hpay : childPayload pres val (i :: rest) = childPayload pres val rest := by
        simp [childPayload, hp]
      have hjtstep : jtApply pres val pos (i :: rest) jtcur =
          jtApply pres val pos rest jtcur := by
        simp [jtApply, hp]
      have hJTlen : (jtApply pres val pos rest jtcur).length = 16 := by
        rw [jtApply_length]; exact hjl
      have hbyte : (jtApply pres val pos rest jtcur)[i]? = some 0 := by
        rw [get?_eq_getD _ _ (by omega), jtApply_getD_not_mem _ _ _ _ _ _ hinr]
        rw [hjz i (List.mem_cons_self i rest)]
      rw [hjtstep]
      simp only [radixReadLoop, hbyte]
      rw [if_neg (show ¬ (0 : Nat) ≠ 0 from by simp)]
      rw [ih pos jtcur acc hndr (fun j hj => his j (List.mem_cons_of_mem i hj))
        hjl hal (fun j hj => hjz j (List.mem_cons_of_mem i hj)) hpos
        (by rw [hpay] at hbound; exact hbound) (by rw [hdrop, hpay])]
      rw [hpay]
      simp [applyVals, hp]

/-! ## The serialized form of `Radix.write_to` -/

/-- Child `i` is present iff its (pre-translation) offset is non-zero. -/
def presOf (r : Radix) (i : Nat) : Bool := decide (r.offsets.getD i 0 ≠ 0)

/-- The translated offset emitted for child `i` (junk `0` if translation fails,
in which case `write_to` returns `none` anyway). -/
def valOf (r : Radix) (m : Nat → Option Nat) (i : Nat) : Nat :=
  (translate_offset (r.offsets.getD i 0) m).getD 0

/-- The translated link offset (junk `0` if translation fails). -/
def linkTOf (r : Radix) (m : Nat → Option Nat) : Nat :=
  (translate_offset r.link_offset m).getD 0

def emptyMap : Nat → Option Nat := fun _ => none

theorem translate_offset_clean (v : Nat) (m : Nat → Option Nat)
    (h : v < DIRTY_OFFSET) : translate_offset v m = some v := by
  unfold translate_offset
  rw [if_neg (by omega)]

/-- If the writer loop succeeds, every non-zero child offset translated
successfully (to `valOf`). -/
theorem radixWriteLoop_some (r : Radix) (m : Nat → Option Nat) :
    ∀ (is : List Nat) (buf out : List Nat), radixWriteLoop r m is buf = some out →
      ∀ i ∈ is, r.offsets.getD i 0 ≠ 0 →
        translate_offset (r.offsets.getD i 0) m = some (valOf r m i) := by
  intro is
  induction is with
  | nil => intro buf out h i hi; simp at hi
  | cons j rest ih =>
    intro buf out h i hi hnz
    by_cases hz : r.offsets.getD j 0 = 0
    · simp only [radixWriteLoop] at h
      rw [if_pos hz] at h
      rcases List.mem_cons.mp hi with hij | hmem
      · subst hij; exact absurd hz hnz
      · exact ih _ _ h i hmem hnz
    · simp only [radixWriteLoop] at h
      rw [if_neg hz] at h
      cases htr : translate_offset (r.offsets.getD j 0) m with
      | none =>
        simp only [htr] at h
        exact Option.noConfusion h
      | some w =>
        simp only [htr] at h
        rcases List.mem_cons.mp hi with hij | hmem
        · subst hij
          rw [htr]
          unfold valOf
          rw [htr]
          rfl
        · exact ih _ _ h i hmem hnz

/-- Master layout theorem: a successful `Radix.write_to` emits exactly
the discriminator, the backfilled 16-byte jump table, the VLQ of the
translated link offset, and the VLQs of the present children in
ascending index order. -/
theorem radix_write_to_spec (r : Radix) (m : Nat → Option Nat) (bytes : List Nat)
    (h : r.write_to m = some bytes) :
    bytes = TYPE_RADIX ::
      jtApply (presOf r) (valOf r m) (17 + (write_vlq (linkTOf r m)).length)
        (List.range 16) (List.replicate 16 0) ++
      write_vlq (linkTOf r m) ++
      childPayload (presOf r) (valOf r m) (List.range 16) := by
  unfold Radix.write_to at h
  cases htr : translate_offset r.link_offset m with
  | none =>
    simp only [htr] at h
    exact Option.noConfusion h
  | some link =>
    simp only [htr] at h
    have hlT : linkTOf r m = link := by unfold linkTOf; rw [htr]; rfl
    have hval : ∀ i ∈ List.range 16, presOf r i = true →
        translate_offset (r.offsets.getD i 0) m = some (valOf r m i) := by
      intro i hi hp
      exact radixWriteLoop_some r m _ _ _ h i hi (of_decide_eq_true hp)
    rw [radixWriteLoop_eq r m (presOf r) (valOf r m) (List.range 16)
      (List.replicate 16 0) (write_vlq link) (by simp)
      (fun i hi => List.mem_range.mp hi) (fun i _ => rfl) hval] at h
    rw [hlT]
    exact (Option.some_inj.mp h).symm

/-- Re-reading the accumulated `offsets` array restores the original
offset list when presence/values come from that list. -/
theorem applyVals_restore (offs : List Nat) (pres : Nat → Bool) (val : Nat → Nat)
    (hpres : ∀ i, pres i = decide (offs.getD i 0 ≠ 0))
    (hval : ∀ i, val i = offs.getD i 0) :
    ∀ (is : List Nat) (acc : List Nat), is.Nodup → (∀ i ∈ is, i < offs.length) →
      acc.length = offs.length →
      (∀ j, j < offs.length → j ∉ is → acc.getD j 0 = offs.getD j 0) →
      (∀ j ∈ is, acc.getD j 0 = 0) →
      applyVals pres val is acc = offs := by
  intro is
  induction is with
  | nil =>
    intro acc _ _ hlen ha _
    exact ext_getD acc offs hlen (fun j hj => ha j (by omega) (by simp))
  | cons i rest ih =>
    intro acc hnd his hlen ha hb
    have hi : i < offs.length := his i (List.mem_cons_self i rest)
    have hinr : i ∉ rest := (List.nodup_cons.mp hnd).1
    have hndr : rest.Nodup := (List.nodup_cons.mp hnd).2
    by_cases hz : offs.getD i 0 = 0
    · have hpf : pres i = false := by
        rw [hpres i]
        exact decide_eq_false (not_not_intro hz)
      simp only [applyVals, hpf, Bool.false_eq_true, if_false]
      refine ih acc hndr (fun j hj => his j (List.mem_cons_of_mem i hj)) hlen ?_
        (fun j hj => hb j (List.mem_cons_of_mem i hj))
      intro j hj hjr
      by_cases hji : j = i
      · subst hji
        rw [hb j (List.mem_cons_self j rest), hz]
      · exact ha j hj (fun hh => (List.mem_cons.mp hh).elim (fun e => hji e) (fun e => hjr e))
    · have hpt : pres i = true := by
        rw [hpres i]
        exact decide_eq_true hz
      simp only [applyVals, hpt, if_true]
      rw [hval i]
      refine ih (acc.set i (offs.getD i 0)) hndr
        (fun j hj => his j (List.mem_cons_of_mem i hj)) (by simp [hlen]) ?_ ?_
      · intro j hj hjr
        by_cases hji : j = i
        · subst hji
          exact getD_set_self _ _ _ (by omega)
        · rw [getD_set_ne _ _ _ _ (fun hh => hji hh.symm)]
          exact ha j hj (fun hh => (List.mem_cons.mp hh).elim (fun e => hji e) (fun e => hjr e))
      · intro j hj
        rw [getD_set_ne _ _ _ _ (fun hh => hinr (by rw [hh]; exact hj))]
        exact hb j (List.mem_cons_of_mem i hj)

theorem take_append_len (p l : List Nat) : (p ++ l).take p.length = p := by
  induction p with
  | nil => simp
  | cons a p ih => simp [ih]

theorem drop_len_append (a l : List Nat) (n : Nat) (h : n = a.length) :
    (a ++ l).drop n = l := by
  subst h
  have h2 := drop_append_len a l 0
  simp only [Nat.add_zero, List.drop_zero] at h2
  exact h2

theorem take_len_append (a l : List Nat) (n : Nat) (h : n = a.length) :
    (a ++ l).take n = a := by
  subst h
  exact take_append_len a l

/-- `Radix.write_to` reduces to the loop once the link translates. -/
theorem radix_write_to_translate (r : Radix) (m : Nat → Option Nat) (link : Nat)
    (h : translate_offset r.link_offset m = some link) :
    r.write_to m = radixWriteLoop r m (List.range 16)
      (TYPE_RADIX :: List.replicate 16 0 ++ write_vlq link) := by
  unfold Radix.write_to
  rw [h]

/-- Radix serialize/deserialize round-trip over an empty offset map:
clean offsets pass through unchanged and the reader, pointed anywhere
past an arbitrary prefix, recovers the record. -/
theorem radix_roundtrip_aux (r : Radix) (p : List Nat)
    (hlen : r.offsets.length = 16)
    (hclean : ∀ i, i < 16 → r.offsets.getD i 0 < DIRTY_OFFSET)
    (hlink : r.link_offset < DIRTY_OFFSET) :
    ∃ bytes, r.write_to emptyMap = some bytes ∧
      Radix.read_from (p ++ bytes) p.length = .ok r := by
  have hcleanAll : ∀ i, r.offsets.getD i 0 < DIRTY_OFFSET := by
    intro i
    by_cases hi : i < 16
    · exact hclean i hi
    · rw [List.getD_eq_default _ _ (by omega)]
      unfold DIRTY_OFFSET
      positivity
  have hvalEq : ∀ i, valOf r emptyMap i = r.offsets.getD i 0 := fun i => by
    unfold valOf
    rw [translate_offset_clean _ _ (hcleanAll i)]
    rfl
  have h2to63 : DIRTY_OFFSET = 128 ^ 9 := by unfold DIRTY_OFFSET; norm_num
  have hV9 : (write_vlq r.link_offset).length ≤ 9 :=
    write_vlq_length_le 9 (by norm_num) _ (by rw [← h2to63]; exact hlink)
  have hV1 : 1 ≤ (write_vlq r.link_offset).length := write_vlq_length_pos _
  have hP : (childPayload (presOf r) (valOf r emptyMap) (List.range 16)).length ≤
      9 * 16 := by
    have := childPayload_length_le (presOf r) (valOf r emptyMap) 9 (List.range 16)
      (fun i _ _ => write_vlq_length_le 9 (by norm_num) _
        (by rw [hvalEq i, ← h2to63]; exact hcleanAll i))
    simpa using this
  have hw : r.write_to emptyMap = some (TYPE_RADIX ::
      jtApply (presOf r) (valOf r emptyMap)
        (17 + (write_vlq r.link_offset).length) (List.range 16)
        (List.replicate 16 0) ++
      write_vlq r.link_offset ++
      childPayload (presOf r) (valOf r emptyMap) (List.range 16)) := by
    rw [radix_write_to_translate r emptyMap r.link_offset
      (translate_offset_clean _ _ hlink)]
    rw [radixWriteLoop_eq r emptyMap (presOf r) (valOf r emptyMap) (List.range 16)
      (List.replicate 16 0) (write_vlq r.link_offset) (by simp)
      (fun i hi => List.mem_range.mp hi) (fun i _ => rfl)
      (fun i _ _ => by
        rw [translate_offset_clean _ _ (hcleanAll i), hvalEq])]
  refine ⟨_, hw, ?_⟩
  have hJTlen : (jtApply (presOf r) (valOf r emptyMap)
      (17 + (write_vlq r.link_offset).length) (List.range 16)
      (List.replicate 16 0)).length = 16 := by
    rw [jtApply_length]
    simp
  have hget0 : (p ++ (TYPE_RADIX ::
      jtApply (presOf r) (valOf r emptyMap)
        (17 + (write_vlq r.link_offset).length) (List.range 16)
        (List.replicate 16 0) ++
      write_vlq r.link_offset ++
      childPayload (presOf r) (valOf r emptyMap) (List.range 16)))[p.length]? =
      some TYPE_RADIX := by
    have h0 := get_append_len p (TYPE_RADIX ::
      jtApply (presOf r) (valOf r emptyMap)
        (17 + (write_vlq r.link_offset).length) (List.range 16)
        (List.replicate 16 0) ++
      write_vlq r.link_offset ++
      childPayload (presOf r) (valOf r emptyMap) (List.range 16)) 0
    rw [Nat.add_zero] at h0
    rw [h0]
    simp
  have hchk : check_type (p ++ (TYPE_RADIX ::
      jtApply (presOf r) (valOf r emptyMap)
        (17 + (write_vlq r.link_offset).length) (List.range 16)
        (List.replicate 16 0) ++
      write_vlq r.link_offset ++
      childPayload (presOf r) (valOf r emptyMap) (List.range 16))) p.length
      TYPE_RADIX = .ok () := by
    unfold check_type
    rw [hget0]
    simp
  have hdrop1 : (p ++ (TYPE_RADIX ::
      jtApply (presOf r) (valOf r emptyMap)
        (17 + (write_vlq r.link_offset).length) (List.range 16)
        (List.replicate 16 0) ++
      write_vlq r.link_offset ++
      childPayload (presOf r) (valOf r emptyMap) (List.range 16))).drop
        (p.length + 1) =
      jtApply (presOf r) (valOf r emptyMap)
        (17 + (write_vlq r.link_offset).length) (List.range 16)
        (List.replicate 16 0) ++
      (write_vlq r.link_offset ++
       childPayload (presOf r) (valOf r emptyMap) (List.range 16)) := by
    rw [drop_append_len]
    simp [List.append_assoc]
  have hdrop17 : (p ++ (TYPE_RADIX ::
      jtApply (presOf r) (valOf r emptyMap)
        (17 + (write_vlq r.link_offset).length) (List.range 16)
        (List.replicate 16 0) ++
      write_vlq r.link_offset ++
      childPayload (presOf r) (valOf r emptyMap) (List.range 16))).drop
        (p.length + 17) =
      write_vlq r.link_offset ++
      childPayload (presOf r) (valOf r emptyMap) (List.range 16) := by
    have hsplit : p.length + 17 = (p.length + 1) + 16 := by omega
    rw [hsplit, ← List.drop_drop, hdrop1, drop_len_append _ _ _ hJTlen.symm]
  have hrange : getRange (p ++ (TYPE_RADIX ::
      jtApply (presOf r) (valOf r emptyMap)
        (17 + (write_vlq r.link_offset).length) (List.range 16)
        (List.replicate 16 0) ++
      write_vlq r.link_offset ++
      childPayload (presOf r) (valOf r emptyMap) (List.range 16)))
        (p.length + 1) 16 =
      some (jtApply (presOf r) (valOf r emptyMap)
        (17 + (write_vlq r.link_offset).length) (List.range 16)
        (List.replicate 16 0)) := by
    unfold getRange
    rw [if_pos (by
      simp only [List.length_append, List.length_cons, hJTlen]
      omega)]
    rw [hdrop1, take_len_append _ _ _ hJTlen.symm]
  have hvlqlink : read_vlq_at (p ++ (TYPE_RADIX ::
      jtApply (presOf r) (valOf r emptyMap)
        (17 + (write_vlq r.link_offset).length) (List.range 16)
        (List.replicate 16 0) ++
      write_vlq r.link_offset ++
      childPayload (presOf r) (valOf r emptyMap) (List.range 16)))
        (p.length + 17) =
      some (r.link_offset, (write_vlq r.link_offset).length) := by
    unfold read_vlq_at
    rw [hdrop17]
    exact read_write_vlq _ _
  have hdropP : (p ++ (TYPE_RADIX ::
      jtApply (presOf r) (valOf r emptyMap)
        (17 + (write_vlq r.link_offset).length) (List.range 16)
        (List.replicate 16 0) ++
      write_vlq r.link_offset ++
      childPayload (presOf r) (valOf r emptyMap) (List.range 16))).drop
        (p.length + (17 + (write_vlq r.link_offset).length)) =
      childPayload (presOf r) (valOf r emptyMap) (List.range 16) := by
    have hsplit : p.length + (17 + (write_vlq r.link_offset).length) =
        (p.length + 17) + (write_vlq r.link_offset).length := by omega
    rw [hsplit, ← List.drop_drop, hdrop17]
    have h2 := drop_append_len (write_vlq r.link_offset)
      (childPayload (presOf r) (valOf r emptyMap) (List.range 16)) 0
    simp only [Nat.add_zero, List.drop_zero] at h2
    exact h2
  have hloop := radixReadLoop_eq (p ++ (TYPE_RADIX ::
      jtApply (presOf r) (valOf r emptyMap)
        (17 + (write_vlq r.link_offset).length) (List.range 16)
        (List.replicate 16 0) ++
      write_vlq r.link_offset ++
      childPayload (presOf r) (valOf r emptyMap) (List.range 16)))
    p.length (presOf r) (valOf r emptyMap) (List.range 16)
    (17 + (write_vlq r.link_offset).length)
    (List.replicate 16 0) (List.replicate 16 0)
    (List.nodup_range 16) (fun i hi => List.mem_range.mp hi)
    (by simp) (by simp) (fun j _ => getD_replicate_zero 16 j)
    (by omega) (by omega) hdropP
  have happ : applyVals (presOf r) (valOf r emptyMap) (List.range 16)
      (List.replicate 16 0) = r.offsets := by
    refine applyVals_restore r.offsets (presOf r) (valOf r emptyMap)
      (fun i => rfl) hvalEq (List.range 16) (List.replicate 16 0)
      (List.nodup_range 16) (fun i hi => by rw [hlen]; exact List.mem_range.mp hi)
      (by simp [hlen]) ?_ (fun j _ => getD_replicate_zero 16 j)
    intro j hj hnot
    exact absurd (List.mem_range.mpr (by omega : j < 16)) hnot
  simp only [Radix.read_from, hchk, hrange, hvlqlink, hloop, happ]

/-! ## Round-trips for the flat records -/

theorem check_type_eq_ok (t : Nat) (rest p : List Nat) :
    check_type (p ++ (t :: rest)) p.length t = .ok () := by
  unfold check_type
  have h0 := get_append_len p (t :: rest) 0
  rw [Nat.add_zero] at h0
  rw [h0]
  simp

theorem get_cons_succ (a n : Nat) (l : List Nat) : (a :: l)[n + 1]? = l[n]? := by
  simp

theorem drop_one_cons (t : Nat) (rest p : List Nat) :
    (p ++ (t :: rest)).drop (p.length + 1) = rest := by
  rw [drop_append_len]
  simp

/-- The two reads shared by `Leaf.read_from` and `Link.read_from` on a
record of shape discriminator, VLQ, VLQ. -/
theorem two_vlq_reads (t a b : Nat) (p : List Nat) :
    check_type (p ++ (t :: write_vlq a ++ write_vlq b)) p.length t = .ok () ∧
    read_vlq_at (p ++ (t :: write_vlq a ++ write_vlq b)) (p.length + 1) =
      some (a, (write_vlq a).length) ∧
    read_vlq_at (p ++ (t :: write_vlq a ++ write_vlq b))
      (p.length + (write_vlq a).length + 1) = some (b, (write_vlq b).length) := by
  have hd1 : (p ++ (t :: write_vlq a ++ write_vlq b)).drop (p.length + 1) =
      write_vlq a ++ write_vlq b := drop_one_cons t _ p
  refine ⟨check_type_eq_ok t _ p, ?_, ?_⟩
  · unfold read_vlq_at
    rw [hd1]
    exact read_write_vlq _ _
  · unfold read_vlq_at
    have hsplit : p.length + (write_vlq a).length + 1 =
        (p.length + 1) + (write_vlq a).length := by omega
    rw [hsplit, ← List.drop_drop, hd1, drop_len_append _ _ _ rfl]
    have h2 := read_write_vlq b []
    simpa using h2

theorem leaf_roundtrip_aux (lf : Leaf) (p : List Nat)
    (hk : lf.key_offset < DIRTY_OFFSET) (hl : lf.link_offset < DIRTY_OFFSET) :
    ∃ bytes, lf.write_to emptyMap = some bytes ∧
      Leaf.read_from (p ++ bytes) p.length = .ok lf := by
  refine ⟨TYPE_LEAF :: write_vlq lf.key_offset ++ write_vlq lf.link_offset, ?_, ?_⟩
  · unfold Leaf.write_to
    rw [translate_offset_clean _ _ hk, translate_offset_clean _ _ hl]
  · obtain ⟨h1, h2, h3⟩ := two_vlq_reads TYPE_LEAF lf.key_offset lf.link_offset p
    simp only [Leaf.read_from, h1, h2, h3]

theorem link_roundtrip_aux (lk : Link) (p : List Nat)
    (hn : lk.next_link_offset < DIRTY_OFFSET) :
    ∃ bytes, lk.write_to emptyMap = some bytes ∧
      Link.read_from (p ++ bytes) p.length = .ok lk := by
  refine ⟨TYPE_LINK :: write_vlq lk.value ++ write_vlq lk.next_link_offset, ?_, ?_⟩
  · unfold Link.write_to
    rw [translate_offset_clean _ _ hn]
  · obtain ⟨h1, h2, h3⟩ := two_vlq_reads TYPE_LINK lk.value lk.next_link_offset p
    simp only [Link.read_from, h1, h2, h3]

theorem key_roundtrip_aux (k : Key) (p : List Nat) :
    Key.read_from (p ++ k.write_to) p.length = .ok k := by
  unfold Key.write_to
  show Key.read_from (p ++ (TYPE_KEY :: (write_vlq k.key.length ++ k.key)))
    p.length = .ok k
  have hd1 : (p ++ (TYPE_KEY :: (write_vlq k.key.length ++ k.key))).drop
      (p.length + 1) = write_vlq k.key.length ++ k.key :=
    drop_one_cons TYPE_KEY _ p
  have hv1 : read_vlq_at (p ++ (TYPE_KEY :: (write_vlq k.key.length ++ k.key)))
      (p.length + 1) = some (k.key.length, (write_vlq k.key.length).length) := by
    unfold read_vlq_at
    rw [hd1]
    exact read_write_vlq _ _
  have hdk : (p ++ (TYPE_KEY :: (write_vlq k.key.length ++ k.key))).drop
      (p.length + 1 + (write_vlq k.key.length).length) = k.key := by
    have hsplit : p.length + 1 + (write_vlq k.key.length).length =
        (p.length + 1) + (write_vlq k.key.length).length := by omega
    rw [hsplit, ← List.drop_drop, hd1, drop_len_append _ _ _ rfl]
  have hr : getRange (p ++ (TYPE_KEY :: (write_vlq k.key.length ++ k.key)))
      (p.length + 1 + (write_vlq k.key.length).length) k.key.length =
      some k.key := by
    unfold getRange
    rw [if_pos (by simp; omega)]
    rw [hdk, List.take_length]
  simp only [Key.read_from,
    check_type_eq_ok TYPE_KEY (write_vlq k.key.length ++ k.key) p, hv1, hr]

theorem root_roundtrip_aux (rt : Root) (p : List Nat)
    (hr : rt.radix_offset < DIRTY_OFFSET) :
    ∃ bytes, rt.write_to emptyMap = some bytes ∧
      Root.read_from (p ++ bytes) p.length = .ok rt := by
  refine ⟨TYPE_ROOT :: (write_vlq rt.radix_offset ++
    [(write_vlq rt.radix_offset).length + 2]), ?_, ?_⟩
  · unfold Root.write_to
    rw [translate_offset_clean _ _ hr]
    rfl
  · have hd1 : (p ++ (TYPE_ROOT :: (write_vlq rt.radix_offset ++
        [(write_vlq rt.radix_offset).length + 2]))).drop (p.length + 1) =
        write_vlq rt.radix_offset ++ [(write_vlq rt.radix_offset).length + 2] :=
      drop_one_cons TYPE_ROOT _ p
    have hv1 : read_vlq_at (p ++ (TYPE_ROOT :: (write_vlq rt.radix_offset ++
        [(write_vlq rt.radix_offset).length + 2]))) (p.length + 1) =
        some (rt.radix_offset, (write_vlq rt.radix_offset).length) := by
      unfold read_vlq_at
      rw [hd1]
      exact read_write_vlq _ _
    have hb : (p ++ (TYPE_ROOT :: (write_vlq rt.radix_offset ++
        [(write_vlq rt.radix_offset).length + 2])))[p.length + 1 +
          (write_vlq rt.radix_offset).length]? =
        some ((write_vlq rt.radix_offset).length + 2) := by
      have hsplit : p.length + 1 + (write_vlq rt.radix_offset).length =
          p.length + (1 + (write_vlq rt.radix_offset).length) := by omega
      rw [hsplit, get_append_len]
      have h1 : (1 + (write_vlq rt.radix_offset).length) =
          (write_vlq rt.radix_offset).length + 1 := by omega
      rw [h1, get_cons_succ]
      simp
    simp only [Root.read_from, check_type_eq_ok TYPE_ROOT
      (write_vlq rt.radix_offset ++ [(write_vlq rt.radix_offset).length + 2]) p,
      hv1, hb]
    simp

/-- Successful write implies the link offset translated (to `linkTOf`). -/
theorem write_to_link_some (r : Radix) (m : Nat → Option Nat) (bytes : List Nat)
    (h : r.write_to m = some bytes) :
    translate_offset r.link_offset m = some (linkTOf r m) := by
  unfold Radix.write_to at h
  cases htr : translate_offset r.link_offset m with
  | none =>
    simp only [htr] at h
    exact Option.noConfusion h
  | some link =>
    simp only [htr] at h
    unfold linkTOf
    rw [htr]
    rfl

/-- A translation result is clean whenever every map value is clean. -/
theorem translate_some_clean (m : Nat → Option Nat)
    (hm : ∀ k w, m k = some w → w < DIRTY_OFFSET) (v w : Nat)
    (h : translate_offset v m = some w) : w < DIRTY_OFFSET := by
  unfold translate_offset at h
  by_cases hd : DIRTY_OFFSET ≤ v
  · rw [if_pos hd] at h
    exact hm v w h
  · rw [if_neg hd] at h
    have := Option.some_inj.mp h
    omega

theorem leaf_write_some (lf : Leaf) (m : Nat → Option Nat) (bytes : List Nat)
    (h : lf.write_to m = some bytes) :
    ∃ k l, translate_offset lf.key_offset m = some k ∧
      translate_offset lf.link_offset m = some l ∧
      bytes = TYPE_LEAF :: write_vlq k ++ write_vlq l := by
  unfold Leaf.write_to at h
  cases h1 : translate_offset lf.key_offset m with
  | none =>
    simp only [h1] at h
    exact Option.noConfusion h
  | some k =>
    simp only [h1] at h
    cases h2 : translate_offset lf.link_offset m with
    | none =>
      simp only [h2] at h
      exact Option.noConfusion h
    | some l =>
      simp only [h2] at h
      exact ⟨k, l, rfl, rfl, (Option.some_inj.mp h).symm⟩

theorem link_write_some (lk : Link) (m : Nat → Option Nat) (bytes : List Nat)
    (h : lk.write_to m = some bytes) :
    ∃ nx, translate_offset lk.next_link_offset m = some nx ∧
      bytes = TYPE_LINK :: write_vlq lk.value ++ write_vlq nx := by
  unfold Link.write_to at h
  cases h1 : translate_offset lk.next_link_offset m with
  | none =>
    simp only [h1] at h
    exact Option.noConfusion h
  | some nx =>
    simp only [h1] at h
    exact ⟨nx, rfl, (Option.some_inj.mp h).symm⟩

/-! ## Jump-table byte characterization -/

/-- Record-relative byte position at which child `i`'s VLQ begins:
header and jump table (17), the link VLQ (`L0`), then the VLQs of the
present children before `i`. -/
def childStart (pres : Nat → Bool) (val : Nat → Nat) (L0 i : Nat) : Nat :=
  17 + L0 + (childPayload pres val (List.range i)).length

theorem getD_append_left (p l : List Nat) (k : Nat) (h : k < p.length) :
    (p ++ l).getD k 0 = p.getD k 0 := by
  induction p generalizing k with
  | nil => simp at h
  | cons a p ih =>
    cases k with
    | zero => simp [List.getD]
    | succ k => simpa [List.getD] using ih k (by simpa using h)

theorem getD_cons_succ (a : Nat) (l : List Nat) (k : Nat) :
    (a :: l).getD (k + 1) 0 = l.getD k 0 := by
  simp [List.getD]

theorem range16_split (i : Nat) (hi : i < 16) :
    List.range 16 = List.range i ++ i ::
      (List.range (15 - i)).map (fun x => i + (x + 1)) := by
  have h1 : 16 = i + ((15 - i) + 1) := by omega
  rw [h1, List.range_add, List.range_succ_eq_map, List.map_cons, List.map_map]
  congr 1

theorem not_mem_shift_tail (i : Nat) :
    i ∉ (List.range (15 - i)).map (fun x => i + (x + 1)) := by
  intro hmem
  obtain ⟨x, _, hx⟩ := List.mem_map.mp hmem
  omega

/-- The jump-table byte written for index `i`: the (mod-256) child
start position when the child is present, `0` otherwise. -/
theorem radix_jt_byte (r : Radix) (m : Nat → Option Nat) (bytes : List Nat)
    (i : Nat) (h : r.write_to m = some bytes) (hi : i < 16) :
    bytes.getD (1 + i) 0 =
      if presOf r i then
        childStart (presOf r) (valOf r m) (write_vlq (linkTOf r m)).length i % 256
      else 0 := by
  rw [radix_write_to_spec r m bytes h]
  have h1i : 1 + i = i + 1 := by omega
  have hJTlen : (jtApply (presOf r) (valOf r m)
      (17 + (write_vlq (linkTOf r m)).length) (List.range 16)
      (List.replicate 16 0)).length = 16 := by
    rw [jtApply_length]
    simp
  rw [show (TYPE_RADIX :: jtApply (presOf r) (valOf r m)
      (17 + (write_vlq (linkTOf r m)).length) (List.range 16)
      (List.replicate 16 0) ++ write_vlq (linkTOf r m) ++
      childPayload (presOf r) (valOf r m) (List.range 16)) =
    (TYPE_RADIX :: jtApply (presOf r) (valOf r m)
      (17 + (write_vlq (linkTOf r m)).length) (List.range 16)
      (List.replicate 16 0)) ++ (write_vlq (linkTOf r m) ++
      childPayload (presOf r) (valOf r m) (List.range 16)) from by
    simp [List.append_assoc]]
  rw [getD_append_left _ _ _
    (by rw [List.length_cons, jtApply_length, List.length_replicate]; omega),
    h1i, getD_cons_succ]
  rw [range16_split i hi, jtApply_append]
  by_cases hp : presOf r i = true
  · simp only [jtApply, hp, if_true]
    rw [jtApply_getD_not_mem _ _ _ _ _ _ (not_mem_shift_tail i),
      getD_set_self _ _ _ (by rw [jtApply_length, List.length_replicate]; omega)]
    unfold childStart
    rfl
  · have hpf : presOf r i = false := by
      cases hq : presOf r i
      · rfl
      · exact absurd hq hp
    simp only [jtApply, hpf, Bool.false_eq_true, if_false]
    rw [jtApply_getD_not_mem _ _ _ _ _ _ (not_mem_shift_tail i),
      jtApply_getD_not_mem _ _ _ _ _ _ (by simp),
      getD_replicate_zero]

/-- The bytes from the child start position begin with the child's VLQ. -/
theorem radix_child_vlq_at (r : Radix) (m : Nat → Option Nat) (bytes : List Nat)
    (i : Nat) (h : r.write_to m = some bytes) (hi : i < 16)
    (hp : presOf r i = true) :
    ∃ t, bytes.drop (childStart (presOf r) (valOf r m)
        (write_vlq (linkTOf r m)).length i) =
      write_vlq (valOf r m i) ++ t := by
  rw [radix_write_to_spec r m bytes h]
  have hJTlen : (jtApply (presOf r) (valOf r m)
      (17 + (write_vlq (linkTOf r m)).length) (List.range 16)
      (List.replicate 16 0)).length = 16 := by
    rw [jtApply_length]
    simp
  have hhead : ((TYPE_RADIX :: jtApply (presOf r) (valOf r m)
      (17 + (write_vlq (linkTOf r m)).length) (List.range 16)
      (List.replicate 16 0)) ++ write_vlq (linkTOf r m)).length =
      17 + (write_vlq (linkTOf r m)).length := by
    rw [List.length_append, List.length_cons, jtApply_length,
      List.length_replicate]
  have hsh : (TYPE_RADIX :: jtApply (presOf r) (valOf r m)
      (17 + (write_vlq (linkTOf r m)).length) (List.range 16)
      (List.replicate 16 0) ++ write_vlq (linkTOf r m) ++
      childPayload (presOf r) (valOf r m) (List.range 16)) =
    ((TYPE_RADIX :: jtApply (presOf r) (valOf r m)
      (17 + (write_vlq (linkTOf r m)).length) (List.range 16)
      (List.replicate 16 0)) ++ write_vlq (linkTOf r m)) ++
      childPayload (presOf r) (valOf r m) (List.range 16) := by
    simp [List.append_assoc]
  rw [hsh]
  unfold childStart
  have hsplit : 17 + (write_vlq (linkTOf r m)).length +
      (childPayload (presOf r) (valOf r m) (List.range i)).length =
      ((TYPE_RADIX :: jtApply (presOf r) (valOf r m)
        (17 + (write_vlq (linkTOf r m)).length) (List.range 16)
        (List.replicate 16 0)) ++ write_vlq (linkTOf r m)).length +
      (childPayload (presOf r) (valOf r m) (List.range i)).length := by
    rw [hhead]
  rw [hsplit, drop_append_len]
  rw [range16_split i hi, childPayload_append, drop_len_append _ _ _ rfl]
  refine ⟨childPayload (presOf r) (valOf r m)
    ((List.range (15 - i)).map (fun x => i + (x + 1))), ?_⟩
  simp [childPayload, hp]

/-- Bound on the child start position when all emitted values are `u64`. -/
theorem childStart_le_177 (pres : Nat → Bool) (val : Nat → Nat) (L0 i : Nat)
    (hL0 : L0 ≤ 10) (hi : i < 16)
    (hv : ∀ j, j < 16 → (write_vlq (val j)).length ≤ 10) :
    childStart pres val L0 i ≤ 177 := by
  unfold childStart
  have hp := childPayload_length_le pres val 10 (List.range i)
    (fun j hj _ => hv j (by have := List.mem_range.mp hj; omega))
  rw [List.length_range] at hp
  have : 10 * i ≤ 150 := by omega
  omega

theorem vlq_u64_length_le (n : Nat) (h : n < 2 ^ 64) :
    (write_vlq n).length ≤ 10 := by
  refine write_vlq_length_le 10 (by norm_num) n ?_
  calc n < 2 ^ 64 := h
    _ ≤ 128 ^ 10 := by norm_num

/-! ## In-memory tree: lookup and insert (modelled from the spec)

The in-memory hybrid tree with its `lookup` and `insert` operations is
part of the repository core but not among the sources under `src/`
(only the entry format is).  It is modelled from the spec, sections
4.4 - 4.6: a base-16 trie over the nibbles of the key (high nibble
first), leaves referencing the full key and the newest-first value
list, value insertion prepending a Link, and leaf splitting on
divergence.  The offset/arena indirection (dirty offsets naming pool
slots) is represented by direct edges; the spec states only tag,
contents and addressability matter for it. -/

/-- Modelled from the spec: a node of the in-memory tree — absent
child, Radix node (16 children plus the own value list for a key
exhausted exactly here), or Leaf (full key plus value list). -/
inductive MTree where
  | empty : MTree
  | radix : (Fin 16 → MTree) → List Nat → MTree
  | leaf : List (Fin 16) → List Nat → MTree

def updateCh (ch : Fin 16 → MTree) (n : Fin 16) (t : MTree) : Fin 16 → MTree :=
  fun m => if m = n then t else ch m

def singleCh (n : Fin 16) (t : MTree) : Fin 16 → MTree :=
  fun m => if m = n then t else .empty

/-- Modelled from the spec (section 4.5): lookup walks the trie by
nibble; at a Radix with the key exhausted it reads the node's own
list; at a Leaf it compares the stored full key with the lookup key. -/
def lookupN (full : List (Fin 16)) : MTree → List (Fin 16) → List Nat
  | .empty, _ => []
  | .radix _ link, [] => link
  | .radix ch _, n :: rest => lookupN full (ch n) rest
  | .leaf k vals, _ => if k = full then vals else []

/-- Modelled from the spec (section 4.6): splitting a Leaf whose key
differs from the inserted key — interior Radix nodes over the common
nibble prefix, the proper-prefix key attached on a Radix's own list. -/
def splitN (k1 : List (Fin 16)) (vals1 : List Nat) (k2 : List (Fin 16)) (v2 : Nat) :
    List (Fin 16) → List (Fin 16) → MTree
  | [], [] => .leaf k2 (v2 :: vals1)
  | [], n2 :: _ => .radix (singleCh n2 (.leaf k2 [v2])) vals1
  | n1 :: _, [] => .radix (singleCh n1 (.leaf k1 vals1)) [v2]
  | n1 :: t1, n2 :: t2 =>
    if n1 = n2 then .radix (singleCh n1 (splitN k1 vals1 k2 v2 t1 t2)) []
    else .radix (updateCh (singleCh n1 (.leaf k1 vals1)) n2 (.leaf k2 [v2])) []

/-- Modelled from the spec (section 4.6): insert prepends to the list
when the key already exists (at a Leaf or exhausted at a Radix),
installs a fresh Leaf on an absent edge, and splits on a differing
Leaf. -/
def insertN (full : List (Fin 16)) (v : Nat) : MTree → List (Fin 16) → MTree
  | .empty, _ => .leaf full [v]
  | .radix ch link, [] => .radix ch (v :: link)
  | .radix ch link, n :: rest =>
    .radix (updateCh ch n (insertN full v (ch n) rest)) link
  | .leaf k vals, rest =>
    if k = full then .leaf k (v :: vals)
    else splitN k vals full v (k.drop (full.length - rest.length)) rest

/-- Well-formedness: every Leaf under path `p` stores a key with
nibble-prefix `p`. -/
def WFT : List (Fin 16) → MTree → Prop
  | _, .empty => True
  | p, .radix ch _ => ∀ n : Fin 16, WFT (p ++ [n]) (ch n)
  | p, .leaf k _ => p <+: k

/-- Modelled from the spec: byte-string keys are read as nibble
sequences, high nibble first within each byte. -/
def toNibbles : List Nat → List (Fin 16)
  | [] => []
  | b :: rest =>
    ⟨b / 16 % 16, Nat.mod_lt _ (by omega)⟩ ::
    ⟨b % 16, Nat.mod_lt _ (by omega)⟩ :: toNibbles rest

/-- A fresh index: an empty Radix root. -/
def emptyIndex : MTree := .radix (fun _ => .empty) []

/-- Modelled from the spec: `insert(key, value)`. -/
def insertIdx (t : MTree) (key : List Nat) (v : Nat) : MTree :=
  insertN (toNibbles key) v t (toNibbles key)

/-- Modelled from the spec: `lookup(key)` (the resulting value list,
newest first). -/
def lookupIdx (t : MTree) (key : List Nat) : List Nat :=
  lookupN (toNibbles key) t (toNibbles key)

theorem WFT_splitN (k1 : List (Fin 16)) (vals1 : List Nat) (k2 : List (Fin 16))
    (v2 : Nat) :
    ∀ (r1 r2 p : List (Fin 16)), k1 = p ++ r1 → k2 = p ++ r2 →
      WFT p (splitN k1 vals1 k2 v2 r1 r2) := by
  intro r1
  induction r1 with
  | nil =>
    intro r2 p h1 h2
    cases r2 with
    | nil =>
      simp only [splitN, WFT]
      exact ⟨[], by simp [h2]⟩
    | cons n2 t2 =>
      simp only [splitN, WFT]
      intro m
      by_cases hm : m = n2
      · subst hm
        simp only [singleCh, if_pos rfl, WFT]
        exact ⟨t2, by simp [h2]⟩
      · simp only [singleCh, if_neg hm, WFT]
  | cons n1 t1 ih =>
    intro r2 p h1 h2
    cases r2 with
    | nil =>
      simp only [splitN, WFT]
      intro m
      by_cases hm : m = n1
      · subst hm
        simp only [singleCh, if_pos rfl, WFT]
        exact ⟨t1, by simp [h1]⟩
      · simp only [singleCh, if_neg hm, WFT]
    | cons n2 t2 =>
      by_cases hn : n1 = n2
      · subst hn
        simp only [splitN, if_pos rfl, WFT]
        intro m
        by_cases hm : m = n1
        · subst hm
          simp only [singleCh, if_pos rfl]
          exact ih t2 (p ++ [m]) (by simp [h1]) (by simp [h2])
        · simp only [singleCh, if_neg hm, WFT]
      · simp only [splitN, if_neg hn, WFT]
        intro m
        by_cases hm2 : m = n2
        · subst hm2
          simp only [updateCh, if_pos rfl, WFT]
          exact ⟨t2, by simp [h2]⟩
        · by_cases hm1 : m = n1
          · subst hm1
            simp only [updateCh, if_neg hm2, singleCh, if_pos rfl, WFT]
            exact ⟨t1, by simp [h1]⟩
          · simp only [updateCh, if_neg hm2, singleCh, if_neg hm1, WFT]

theorem WFT_insertN (v : Nat) :
    ∀ (t : MTree) (p full rest : List (Fin 16)),
      WFT p t → full = p ++ rest → WFT p (insertN full v t rest) := by
  intro t
  induction t with
  | empty =>
    intro p full rest _ hfull
    simp only [insertN, WFT]
    exact ⟨rest, hfull.symm⟩
  | radix ch link ih =>
    intro p full rest hwf hfull
    simp only [WFT] at hwf
    cases rest with
    | nil =>
      simp only [insertN, WFT]
      exact hwf
    | cons n rest2 =>
      simp only [insertN, WFT]
      intro m
      by_cases hm : m = n
      · subst hm
        simp only [updateCh, if_pos rfl]
        exact ih m (p ++ [m]) full rest2 (hwf m) (by simp [hfull])
      · simp only [updateCh, if_neg hm]
        exact hwf m
  | leaf k vals =>
    intro p full rest hwf hfull
    simp only [WFT] at hwf
    simp only [insertN]
    by_cases hk : k = full
    · rw [if_pos hk]
      simp only [WFT]
      exact hwf
    · rw [if_neg hk]
      obtain ⟨s, hs⟩ := hwf
      have hlen : full.length - rest.length = p.length := by
        rw [hfull]
        simp
      have hdrop : k.drop (full.length - rest.length) = s := by
        rw [hlen, ← hs, List.drop_left]
      rw [hdrop]
      exact WFT_splitN k vals full v s rest p hs.symm hfull

theorem lookupN_splitN_self (k1 : List (Fin 16)) (vals1 : List Nat) (v2 : Nat) :
    ∀ (r1 r2 p k2 : List (Fin 16)), k1 = p ++ r1 → k2 = p ++ r2 → r1 ≠ r2 →
      lookupN k2 (splitN k1 vals1 k2 v2 r1 r2) r2 = [v2] := by
  intro r1
  induction r1 with
  | nil =>
    intro r2 p k2 h1 h2 hne
    cases r2 with
    | nil => exact absurd rfl hne
    | cons n2 t2 =>
      simp only [splitN, lookupN, singleCh, if_pos rfl]
      simp [lookupN]
  | cons n1 t1 ih =>
    intro r2 p k2 h1 h2 hne
    cases r2 with
    | nil => simp [splitN, lookupN]
    | cons n2 t2 =>
      by_cases hn : n1 = n2
      · subst hn
        have ht : t1 ≠ t2 := fun h => hne (by rw [h])
        simp only [splitN, if_pos rfl, lookupN, singleCh]
        simp only [if_true]
        exact ih t2 (p ++ [n1]) k2 (by simp [h1]) (by simp [h2]) ht
      · simp only [splitN, if_neg hn, lookupN, updateCh]
        simp only [if_true]

theorem lookupN_insertN_self (v : Nat) :
    ∀ (t : MTree) (p full rest : List (Fin 16)), WFT p t → full = p ++ rest →
      lookupN full (insertN full v t rest) rest = v :: lookupN full t rest := by
  intro t
  induction t with
  | empty =>
    intro p full rest _ _
    cases rest <;> simp [insertN, lookupN]
  | radix ch link ih =>
    intro p full rest hwf hfull
    simp only [WFT] at hwf
    cases rest with
    | nil => simp [insertN, lookupN]
    | cons n rest2 =>
      simp only [insertN, lookupN, updateCh]
      simp only [if_true]
      exact ih n (p ++ [n]) full rest2 (hwf n) (by simp [hfull])
  | leaf k vals =>
    intro p full rest hwf hfull
    simp only [WFT] at hwf
    simp only [insertN]
    by_cases hk : k = full
    · rw [if_pos hk]
      simp [lookupN, hk]
    · rw [if_neg hk]
      obtain ⟨s, hs⟩ := hwf
      have hlen : full.length - rest.length = p.length := by
        rw [hfull]
        simp
      have hdrop : k.drop (full.length - rest.length) = s := by
        rw [hlen, ← hs, List.drop_left]
      rw [hdrop]
      have hsne : s ≠ rest := by
        intro h
        apply hk
        rw [← hs, h, hfull]
      rw [lookupN_splitN_self k vals v s rest p full hs.symm hfull hsne]
      simp [lookupN, hk]

theorem lookupN_splitN_other (k1 : List (Fin 16)) (vals1 : List Nat) (v2 : Nat) :
    ∀ (r1 r2 p k2 rest2 full2 : List (Fin 16)),
      k1 = p ++ r1 → k2 = p ++ r2 → full2 = p ++ rest2 → r1 ≠ r2 → full2 ≠ k2 →
      lookupN full2 (splitN k1 vals1 k2 v2 r1 r2) rest2 =
        if k1 = full2 then vals1 else [] := by
  intro r1
  induction r1 with
  | nil =>
    intro r2 p k2 rest2 full2 h1 h2 h3 hne hfk
    cases r2 with
    | nil => exact absurd rfl hne
    | cons n2 t2 =>
      cases rest2 with
      | nil =>
        have : k1 = full2 := by rw [h1, h3]
        simp only [splitN, lookupN]
        rw [if_pos this]
      | cons m t =>
        have hk1ne : k1 ≠ full2 := by
          rw [h1, h3]
          intro h
          have := congrArg List.length h
          simp at this
        simp only [splitN, lookupN, singleCh]
        by_cases hm : m = n2
        · subst hm
          rw [if_pos rfl]
          simp only [lookupN]
          rw [if_neg (fun h => hfk h.symm), if_neg hk1ne]
        · rw [if_neg hm]
          simp only [lookupN]
          rw [if_neg hk1ne]
  | cons n1 t1 ih =>
    intro r2 p k2 rest2 full2 h1 h2 h3 hne hfk
    cases r2 with
    | nil =>
      cases rest2 with
      | nil => exact absurd (by rw [h3, h2]) hfk
      | cons m t =>
        simp only [splitN, lookupN, singleCh]
        by_cases hm : m = n1
        · subst hm
          rw [if_pos rfl]
          simp [lookupN]
        · have hk1ne : k1 ≠ full2 := by
            rw [h1, h3]
            intro h
            have h4 := List.append_cancel_left h
            simp only [List.cons.injEq] at h4
            exact hm h4.1.symm
          rw [if_neg hm]
          simp only [lookupN]
          rw [if_neg hk1ne]
    | cons n2 t2 =>
      by_cases hn : n1 = n2
      · subst hn
        have ht12 : t1 ≠ t2 := fun h => hne (by rw [h])
        cases rest2 with
        | nil =>
          have hk1ne : k1 ≠ full2 := by
            rw [h1, h3]
            intro h
            have := congrArg List.length h
            simp at this
          simp only [splitN, if_pos rfl, lookupN]
          rw [if_neg hk1ne]
        | cons m t =>
          simp only [splitN, if_pos rfl, lookupN, singleCh]
          by_cases hm : m = n1
          · subst hm
            rw [if_pos rfl]
            exact ih t2 (p ++ [m]) k2 t full2 (by simp [h1]) (by simp [h2])
              (by simp [h3]) ht12 hfk
          · have hk1ne : k1 ≠ full2 := by
              rw [h1, h3]
              intro h
              have h4 := List.append_cancel_left h
              simp only [List.cons.injEq] at h4
              exact hm h4.1.symm
            rw [if_neg hm]
            simp only [lookupN]
            rw [if_neg hk1ne]
      · cases rest2 with
        | nil =>
          have hk1ne : k1 ≠ full2 := by
            rw [h1, h3]
            intro h
            have := congrArg List.length h
            simp at this
          simp only [splitN, if_neg hn, lookupN]
          rw [if_neg hk1ne]
        | cons m t =>
          simp only [splitN, if_neg hn, lookupN, updateCh, singleCh]
          by_cases hm2 : m = n2
          · subst hm2
            rw [if_pos rfl]
            simp only [lookupN]
            have hk1ne : k1 ≠ full2 := by
              rw [h1, h3]
              intro h
              have h4 := List.append_cancel_left h
              simp only [List.cons.injEq] at h4
              exact hn h4.1
            rw [if_neg (fun h => hfk h.symm), if_neg hk1ne]
          · rw [if_neg hm2]
            by_cases hm1 : m = n1
            · subst hm1
              rw [if_pos rfl]
              simp [lookupN]
            · have hk1ne : k1 ≠ full2 := by
                rw [h1, h3]
                intro h
                have h4 := List.append_cancel_left h
                simp only [List.cons.injEq] at h4
                exact hm1 h4.1.symm
              rw [if_neg hm1]
              simp only [lookupN]
              rw [if_neg hk1ne]

theorem lookupN_insertN_other (v : Nat) :
    ∀ (t : MTree) (p full rest full2 rest2 : List (Fin 16)),
      WFT p t → full = p ++ rest → full2 = p ++ rest2 → full ≠ full2 →
      lookupN full2 (insertN full v t rest) rest2 = lookupN full2 t rest2 := by
  intro t
  induction t with
  | empty =>
    intro p full rest full2 rest2 _ hfull hfull2 hne
    simp only [insertN, lookupN]
    rw [if_neg hne]
  | radix ch link ih =>
    intro p full rest full2 rest2 hwf hfull hfull2 hne
    simp only [WFT] at hwf
    cases rest with
    | nil =>
      cases rest2 with
      | nil => exact absurd (by rw [hfull, hfull2]) hne
      | cons m t2 => simp only [insertN, lookupN]
    | cons n rest1 =>
      cases rest2 with
      | nil => simp only [insertN, lookupN]
      | cons m t2 =>
        simp only [insertN, lookupN, updateCh]
        by_cases hm : m = n
        · subst hm
          rw [if_pos rfl]
          exact ih m (p ++ [m]) full rest1 full2 t2 (hwf m) (by simp [hfull])
            (by simp [hfull2]) hne
        · rw [if_neg hm]
  | leaf k vals =>
    intro p full rest full2 rest2 hwf hfull hfull2 hne
    simp only [WFT] at hwf
    simp only [insertN]
    by_cases hk : k = full
    · rw [if_pos hk]
      simp only [lookupN]
      rw [if_neg (by rw [hk]; exact hne), if_neg (by rw [hk]; exact hne)]
    · rw [if_neg hk]
      obtain ⟨s, hs⟩ := hwf
      have hlen : full.length - rest.length = p.length := by
        rw [hfull]
        simp
      have hdrop : k.drop (full.length - rest.length) = s := by
        rw [hlen, ← hs, List.drop_left]
      rw [hdrop]
      have hsne : s ≠ rest := by
        intro h
        apply hk
        rw [← hs, h, hfull]
      have hfk : full2 ≠ full := fun h => hne h.symm
      rw [lookupN_splitN_other k vals v s rest p full rest2 full2 hs.symm hfull
        hfull2 hsne hfk]
      simp [lookupN]

theorem toNibbles_inj : ∀ (k1 k2 : List Nat), (∀ b ∈ k1, b < 256) →
    (∀ b ∈ k2, b < 256) → toNibbles k1 = toNibbles k2 → k1 = k2 := by
  intro k1
  induction k1 with
  | nil =>
    intro k2 _ _ h
    cases k2 with
    | nil => rfl
    | cons b r => simp [toNibbles] at h
  | cons a r1 ih =>
    intro k2 hv1 hv2 h
    cases k2 with
    | nil => simp [toNibbles] at h
    | cons b r2 =>
      simp only [toNibbles, List.cons.injEq, Fin.mk.injEq] at h
      obtain ⟨hhi, hlo, htail⟩ := h
      have ha : a < 256 := hv1 a (List.mem_cons_self a r1)
      have hb : b < 256 := hv2 b (List.mem_cons_self b r2)
      have hab : a = b := by omega
      rw [hab, ih r2 (fun x hx => hv1 x (List.mem_cons_of_mem _ hx))
        (fun x hx => hv2 x (List.mem_cons_of_mem _ hx)) htail]

theorem lookupIdx_insertIdx_self (t : MTree) (key : List Nat) (v : Nat)
    (hwf : WFT [] t) : lookupIdx (insertIdx t key v) key = v :: lookupIdx t key :=
  lookupN_insertN_self v t [] (toNibbles key) (toNibbles key) hwf (by simp)

theorem lookupIdx_insertIdx_other (t : MTree) (k1 k2 : List Nat) (v : Nat)
    (hwf : WFT [] t) (hne : toNibbles k1 ≠ toNibbles k2) :
    lookupIdx (insertIdx t k1 v) k2 = lookupIdx t k2 :=
  lookupN_insertN_other v t [] (toNibbles k1) (toNibbles k1) (toNibbles k2)
    (toNibbles k2) hwf (by simp) (by simp) hne

theorem WFT_foldIns : ∀ (ops : List (List Nat × Nat)) (t : MTree), WFT [] t →
    WFT [] (ops.foldl (fun acc kv => insertIdx acc kv.1 kv.2) t) := by
  intro ops
  induction ops with
  | nil => intro t h; exact h
  | cons kv ops ih =>
    intro t h
    exact ih _ (WFT_insertN kv.2 t [] (toNibbles kv.1) (toNibbles kv.1) h (by simp))

theorem lookupIdx_empty (key : List Nat) : lookupIdx emptyIndex key = [] := by
  unfold lookupIdx emptyIndex
  cases h : toNibbles key with
  | nil => simp [lookupN]
  | cons n rest => simp [lookupN]

/-! ## Read-error characterization -/

/-- Failure conditions of a reader of shape discriminator, VLQ, VLQ
(`Leaf.read_from` with `t = 3`, `Link.read_from` with `t = 4`): wrong or
missing type byte, or one of the two VLQs truncated. -/
def twoVlqReadFails (t : Nat) (buf : List Nat) (off : Nat) : Prop :=
  buf[off]? ≠ some t ∨
  read_vlq_at buf (off + 1) = none ∨
  ∃ a l, read_vlq_at buf (off + 1) = some (a, l) ∧
    read_vlq_at buf (off + l + 1) = none

/-- Failure conditions of the Radix child loop: at some reached index
with a non-zero jump byte, the byte differs from the current parse
position, or the child VLQ is truncated. -/
def radixLoopFails (buf : List Nat) (off : Nat) (jt : List Nat) :
    List Nat → Nat → Prop
  | [], _ => False
  | i :: rest, pos =>
    if jt.getD i 0 = 0 then radixLoopFails buf off jt rest pos
    else if jt.getD i 0 = pos then
      match read_vlq_at buf (off + pos) with
      | none => True
      | some (_, l) => radixLoopFails buf off jt rest (pos + l)
    else True

/-- Failure conditions of `Radix.read_from`: wrong or missing type
byte, truncated jump table, truncated link VLQ, or a loop failure. -/
def radixReadFails (buf : List Nat) (off : Nat) : Prop :=
  buf[off]? ≠ some TYPE_RADIX ∨
  buf.length < off + 1 + 16 ∨
  read_vlq_at buf (off + 17) = none ∨
  ∃ lo l, read_vlq_at buf (off + 17) = some (lo, l) ∧
    radixLoopFails buf off ((buf.drop (off + 1)).take 16) (List.range 16)
      (17 + l)

theorem leaf_read_err_iff (buf : List Nat) (off : Nat) :
    (Leaf.read_from buf off = .err ↔ twoVlqReadFails TYPE_LEAF buf off) ∧
    ((∃ x, Leaf.read_from buf off = .ok x) ↔
      ¬ twoVlqReadFails TYPE_LEAF buf off) := by
  unfold Leaf.read_from check_type twoVlqReadFails
  cases hge : buf[off]? with
  | none => simp [hge]
  | some t =>
    by_cases ht : t = TYPE_LEAF
    · subst ht
      cases hv1 : read_vlq_at buf (off + 1) with
      | none => simp [hv1]
      | some kl =>
        obtain ⟨k, l⟩ := kl
        cases hv2 : read_vlq_at buf (off + l + 1) with
        | none =>
          simp [hv1, hv2]
          exact ⟨k, l, ⟨rfl, rfl⟩, hv2⟩
        | some ll => simp [hv1, hv2]
    · simp [ht]

theorem link_read_err_iff (buf : List Nat) (off : Nat) :
    (Link.read_from buf off = .err ↔ twoVlqReadFails TYPE_LINK buf off) ∧
    ((∃ x, Link.read_from buf off = .ok x) ↔
      ¬ twoVlqReadFails TYPE_LINK buf off) := by
  unfold Link.read_from check_type twoVlqReadFails
  cases hge : buf[off]? with
  | none => simp [hge]
  | some t =>
    by_cases ht : t = TYPE_LINK
    · subst ht
      cases hv1 : read_vlq_at buf (off + 1) with
      | none => simp [hv1]
      | some kl =>
        obtain ⟨k, l⟩ := kl
        cases hv2 : read_vlq_at buf (off + l + 1) with
        | none =>
          simp [hv1, hv2]
          exact ⟨k, l, ⟨rfl, rfl⟩, hv2⟩
        | some ll => simp [hv1, hv2]
    · simp [ht]

theorem radixReadLoop_err_iff (buf : List Nat) (off : Nat) (jt : List Nat)
    (hlen : jt.length = 16) :
    ∀ (is : List Nat), (∀ i ∈ is, i < 16) → ∀ (pos : Nat) (acc : List Nat),
      (radixReadLoop buf off jt is pos acc = .err ↔
        radixLoopFails buf off jt is pos) ∧
      radixReadLoop buf off jt is pos acc ≠ .fatal := by
  intro is
  induction is with
  | nil => intro _ pos acc; simp [radixReadLoop, radixLoopFails]
  | cons i rest ih =>
    intro his pos acc
    have hi : i < 16 := his i (List.mem_cons_self i rest)
    have hget : jt[i]? = some (jt.getD i 0) := get?_eq_getD jt i (by omega)
    have ihr := ih (fun j hj => his j (List.mem_cons_of_mem i hj))
    by_cases hz : jt.getD i 0 = 0
    · have hstep : radixReadLoop buf off jt (i :: rest) pos acc =
          radixReadLoop buf off jt rest pos acc := by
        simp only [radixReadLoop, hget]
        rw [if_neg (not_not_intro hz)]
      have hpred : radixLoopFails buf off jt (i :: rest) pos =
          radixLoopFails buf off jt rest pos := by
        simp only [radixLoopFails]
        rw [if_pos hz]
      rw [hstep, hpred]
      exact ihr pos acc
    · by_cases hbp : jt.getD i 0 = pos
      · cases hv : read_vlq_at buf (off + pos) with
        | none =>
          have hstep : radixReadLoop buf off jt (i :: rest) pos acc = .err := by
            simp only [radixReadLoop, hget]
            rw [if_pos hz, if_neg (not_not_intro hbp), hv]
          have hpred : radixLoopFails buf off jt (i :: rest) pos = True := by
            simp only [radixLoopFails]
            rw [if_neg hz, if_pos hbp, hv]
          rw [hstep, hpred]
          simp
        | some vl =>
          obtain ⟨v, l⟩ := vl
          have hstep : radixReadLoop buf off jt (i :: rest) pos acc =
              radixReadLoop buf off jt rest (pos + l) (acc.set i v) := by
            simp only [radixReadLoop, hget]
            rw [if_pos hz, if_neg (not_not_intro hbp), hv]
          have hpred : radixLoopFails buf off jt (i :: rest) pos =
              radixLoopFails buf off jt rest (pos + l) := by
            simp only [radixLoopFails]
            rw [if_neg hz, if_pos hbp, hv]
          rw [hstep, hpred]
          exact ihr (pos + l) (acc.set i v)
      · have hstep : radixReadLoop buf off jt (i :: rest) pos acc = .err := by
          simp only [radixReadLoop, hget]
          rw [if_pos hz, if_pos hbp]
        have hpred : radixLoopFails buf off jt (i :: rest) pos = True := by
          simp only [radixLoopFails]
          rw [if_neg hz, if_neg hbp]
        rw [hstep, hpred]
        simp

theorem radix_read_err_iff (buf : List Nat) (off : Nat) :
    (Radix.read_from buf off = .err ↔ radixReadFails buf off) ∧
    ((∃ x, Radix.read_from buf off = .ok x) ↔ ¬ radixReadFails buf off) := by
  cases hge : buf[off]? with
  | none =>
    have hread : Radix.read_from buf off = .err := by
      simp only [Radix.read_from, check_type, hge]
    have hfails : radixReadFails buf off :=
      Or.inl (by rw [hge]; exact fun h => Option.noConfusion h)
    exact ⟨iff_of_true hread hfails,
      iff_of_false (fun ⟨x, hx⟩ => by rw [hread] at hx; exact ReadRes.noConfusion hx)
        (not_not_intro hfails)⟩
  | some t =>
    by_cases ht : t = TYPE_RADIX
    · subst ht
      have hchk : check_type buf off TYPE_RADIX = .ok () := by
        unfold check_type
        rw [hge]
        simp
      by_cases hlen : off + 1 + 16 ≤ buf.length
      · have hrange : getRange buf (off + 1) 16 =
            some ((buf.drop (off + 1)).take 16) := by
          unfold getRange
          rw [if_pos hlen]
        cases hv : read_vlq_at buf (off + 17) with
        | none =>
          have hread : Radix.read_from buf off = .err := by
            simp only [Radix.read_from, hchk, hrange, hv]
          have hfails : radixReadFails buf off := Or.inr (Or.inr (Or.inl hv))
          exact ⟨iff_of_true hread hfails,
            iff_of_false
              (fun ⟨x, hx⟩ => by rw [hread] at hx; exact ReadRes.noConfusion hx)
              (not_not_intro hfails)⟩
        | some ll =>
          obtain ⟨lo, l⟩ := ll
          have hjtlen : ((buf.drop (off + 1)).take 16).length = 16 := by
            rw [List.length_take, List.length_drop]
            omega
          have hloop := radixReadLoop_err_iff buf off
            ((buf.drop (off + 1)).take 16) hjtlen (List.range 16)
            (fun i hi => List.mem_range.mp hi) (17 + l) (List.replicate 16 0)
          cases hres : radixReadLoop buf off ((buf.drop (off + 1)).take 16)
              (List.range 16) (17 + l) (List.replicate 16 0) with
          | ok out =>
            obtain ⟨offs, fin⟩ := out
            have hread : Radix.read_from buf off = .ok ⟨offs, lo⟩ := by
              simp only [Radix.read_from, hchk, hrange, hv, hres]
            have hnfails : ¬ radixReadFails buf off := by
              rintro (h1 | h2 | h3 | ⟨lo2, l2, heq, hlf⟩)
              · exact h1 hge
              · omega
              · rw [hv] at h3
                exact Option.noConfusion h3
              · rw [hv] at heq
                have h4 := Option.some_inj.mp heq
                have hl2 : l2 = l := by
                  have h6 := congrArg Prod.snd h4
                  simpa using h6.symm
                subst hl2
                have h5 := hloop.1.mpr hlf
                rw [hres] at h5
                exact ReadRes.noConfusion h5
            exact ⟨iff_of_false
                (fun hx => by rw [hread] at hx; exact ReadRes.noConfusion hx)
                hnfails,
              iff_of_true ⟨⟨offs, lo⟩, hread⟩ hnfails⟩
          | err =>
            have hread : Radix.read_from buf off = .err := by
              simp only [Radix.read_from, hchk, hrange, hv, hres]
            have hfails : radixReadFails buf off :=
              Or.inr (Or.inr (Or.inr ⟨lo, l, hv, hloop.1.mp hres⟩))
            exact ⟨iff_of_true hread hfails,
              iff_of_false
                (fun ⟨x, hx⟩ => by rw [hread] at hx; exact ReadRes.noConfusion hx)
                (not_not_intro hfails)⟩
          | fatal => exact absurd hres hloop.2
      · have hrange : getRange buf (off + 1) 16 = none := by
          unfold getRange
          rw [if_neg hlen]
        have hread : Radix.read_from buf off = .err := by
          simp only [Radix.read_from, hchk, hrange]
        have hfails : radixReadFails buf off := Or.inr (Or.inl (by omega))
        exact ⟨iff_of_true hread hfails,
          iff_of_false
            (fun ⟨x, hx⟩ => by rw [hread] at hx; exact ReadRes.noConfusion hx)
            (not_not_intro hfails)⟩
    · have hread : Radix.read_from buf off = .err := by
        simp only [Radix.read_from, check_type, hge]
        rw [if_neg ht]
      have hfails : radixReadFails buf off :=
        Or.inl (by rw [hge]; exact fun h => ht (Option.some_inj.mp h))
      exact ⟨iff_of_true hread hfails,
        iff_of_false
          (fun ⟨x, hx⟩ => by rw [hread] at hx; exact ReadRes.noConfusion hx)
          (not_not_intro hfails)⟩

/-! ## Claims -/

/-- C1: Serialize/deserialize round-trip.  For every Radix whose
`link_offset` and all sixteen `offsets[i]` are clean, `write_to` with an
empty offset map followed by `read_from` at the written position
returns an equal record; likewise for Leaf (clean `key_offset` and
`link_offset`), Link (any `u64` value, clean `next_link_offset`), and
the spec-modelled Key and Root records. -/
theorem claim_C1_format_roundtrip (r : Radix) (lf : Leaf) (lk : Link) (k : Key)
    (rt : Root) (p : List Nat)
    (hlen : r.offsets.length = 16)
    (hclean : ∀ i, i < 16 → r.offsets.getD i 0 < DIRTY_OFFSET)
    (hlink : r.link_offset < DIRTY_OFFSET)
    (hk : lf.key_offset < DIRTY_OFFSET) (hl : lf.link_offset < DIRTY_OFFSET)
    (hn : lk.next_link_offset < DIRTY_OFFSET)
    (hro : rt.radix_offset < DIRTY_OFFSET) :
    (∃ bytes, r.write_to emptyMap = some bytes ∧
      Radix.read_from (p ++ bytes) p.length = .ok r) ∧
    (∃ bytes, lf.write_to emptyMap = some bytes ∧
      Leaf.read_from (p ++ bytes) p.length = .ok lf) ∧
    (∃ bytes, lk.write_to emptyMap = some bytes ∧
      Link.read_from (p ++ bytes) p.length = .ok lk) ∧
    Key.read_from (p ++ k.write_to) p.length = .ok k ∧
    (∃ bytes, rt.write_to emptyMap = some bytes ∧
      Root.read_from (p ++ bytes) p.length = .ok rt) :=
  ⟨radix_roundtrip_aux r p hlen hclean hlink,
   leaf_roundtrip_aux lf p hk hl,
   link_roundtrip_aux lk p hn,
   key_roundtrip_aux k p,
   root_roundtrip_aux rt p hro⟩

theorem claim_C1_format_roundtrip_witness :
    (([5, 0, 0, 70000, 0, 0, 0, 0, 0, 0, 0, 0, 0, 0, 0, 1] : List Nat).length = 16 ∧
      (∀ i, i < 16 →
        ([5, 0, 0, 70000, 0, 0, 0, 0, 0, 0, 0, 0, 0, 0, 0, 1] : List Nat).getD i 0 <
          DIRTY_OFFSET) ∧
      (9 : Nat) < DIRTY_OFFSET ∧ (4 : Nat) < DIRTY_OFFSET ∧
      (7 : Nat) < DIRTY_OFFSET ∧ (8 : Nat) < DIRTY_OFFSET ∧
      (21 : Nat) < DIRTY_OFFSET) ∧
    ((∃ bytes, Radix.write_to
        ⟨[5, 0, 0, 70000, 0, 0, 0, 0, 0, 0, 0, 0, 0, 0, 0, 1], 9⟩ emptyMap =
          some bytes ∧
      Radix.read_from ([0] ++ bytes) [0].length =
        .ok ⟨[5, 0, 0, 70000, 0, 0, 0, 0, 0, 0, 0, 0, 0, 0, 0, 1], 9⟩) ∧
    (∃ bytes, Leaf.write_to ⟨4, 7⟩ emptyMap = some bytes ∧
      Leaf.read_from ([0] ++ bytes) [0].length = .ok ⟨4, 7⟩) ∧
    (∃ bytes, Link.write_to ⟨42, 8⟩ emptyMap = some bytes ∧
      Link.read_from ([0] ++ bytes) [0].length = .ok ⟨42, 8⟩) ∧
    Key.read_from ([0] ++ (Key.write_to ⟨[102, 111, 111]⟩)) [0].length =
      .ok ⟨[102, 111, 111]⟩ ∧
    (∃ bytes, Root.write_to ⟨21⟩ emptyMap = some bytes ∧
      Root.read_from ([0] ++ bytes) [0].length = .ok ⟨21⟩)) :=
  ⟨⟨by decide, by decide, by decide, by decide, by decide, by decide, by decide⟩,
   claim_C1_format_roundtrip
     ⟨[5, 0, 0, 70000, 0, 0, 0, 0, 0, 0, 0, 0, 0, 0, 0, 1], 9⟩ ⟨4, 7⟩ ⟨42, 8⟩
     ⟨[102, 111, 111]⟩ ⟨21⟩ [0] (by decide) (by decide) (by decide) (by decide)
     (by decide) (by decide) (by decide)⟩

/-- C3: `translate_offset` returns clean offsets unchanged, returns the
map entry for a dirty offset present in the map, and aborts (models the
`unwrap` panic as `none`) for a dirty offset absent from the map. -/
theorem claim_C3_translate_offset (v : Nat) (m : Nat → Option Nat) :
    (v < DIRTY_OFFSET → translate_offset v m = some v) ∧
    (DIRTY_OFFSET ≤ v → ∀ w, m v = some w → translate_offset v m = some w) ∧
    (DIRTY_OFFSET ≤ v → m v = none → translate_offset v m = none) := by
  refine ⟨fun h => translate_offset_clean v m h, fun h w hw => ?_, fun h hnone => ?_⟩
  · unfold translate_offset
    rw [if_pos h, hw]
  · unfold translate_offset
    rw [if_pos h, hnone]

theorem claim_C3_translate_offset_witness :
    ((5 : Nat) < DIRTY_OFFSET ∧ DIRTY_OFFSET ≤ 2 ^ 63 ∧
      (fun x => if x = 2 ^ 63 then some 9 else none) (2 ^ 63) = some 9 ∧
      DIRTY_OFFSET ≤ 2 ^ 63 + 1 ∧ emptyMap (2 ^ 63 + 1) = none) ∧
    translate_offset 5 emptyMap = some 5 ∧
    translate_offset (2 ^ 63) (fun x => if x = 2 ^ 63 then some 9 else none) =
      some 9 ∧
    translate_offset (2 ^ 63 + 1) emptyMap = none :=
  ⟨⟨by decide, by decide, by decide, by decide, rfl⟩,
   (claim_C3_translate_offset 5 emptyMap).1 (by decide),
   (claim_C3_translate_offset (2 ^ 63)
     (fun x => if x = 2 ^ 63 then some 9 else none)).2.1 (by decide) 9 (by decide),
   (claim_C3_translate_offset (2 ^ 63 + 1) emptyMap).2.2 (by decide) rfl⟩

/-- C10: `Link.write_to` emits the `value` field verbatim (only
`next_link_offset` is translated), so any `u64` value — including
values at or above `2 ^ 63` — is stored and recovered unchanged by
`Link.read_from` whenever the next-link translation succeeds. -/
theorem claim_C10_link_value_verbatim (value next w : Nat)
    (m : Nat → Option Nat) (p : List Nat)
    (hv : value < 2 ^ 64) (htr : translate_offset next m = some w) :
    ∃ bytes, Link.write_to ⟨value, next⟩ m = some bytes ∧
      Link.read_from (p ++ bytes) p.length = .ok ⟨value, w⟩ := by
  refine ⟨TYPE_LINK :: write_vlq value ++ write_vlq w, ?_, ?_⟩
  · unfold Link.write_to
    rw [htr]
  · obtain ⟨h1, h2, h3⟩ := two_vlq_reads TYPE_LINK value w p
    simp only [Link.read_from, h1, h2, h3]

theorem claim_C10_link_value_verbatim_witness :
    ((2 ^ 63 + 7 : Nat) < 2 ^ 64 ∧
      translate_offset 5 emptyMap = some 5) ∧
    (∃ bytes, Link.write_to ⟨2 ^ 63 + 7, 5⟩ emptyMap = some bytes ∧
      Link.read_from ([0] ++ bytes) [0].length = .ok ⟨2 ^ 63 + 7, 5⟩) :=
  ⟨⟨by decide, by decide⟩,
   claim_C10_link_value_verbatim (2 ^ 63 + 7) 5 5 emptyMap [0] (by decide)
     (by decide)⟩

/-- C7: Radix record layout.  A successful `Radix.write_to` emits
exactly the discriminator `0x02`, a 16-byte jump table, the VLQ of the
translated `link_offset`, then for each `i` with `offsets[i] != 0` in
ascending order the VLQ of the translated `offsets[i]`; absent children
contribute no bytes beyond their zero jump-table entry. -/
theorem claim_C7_radix_layout (r : Radix) (m : Nat → Option Nat) (bytes : List Nat)
    (h : r.write_to m = some bytes) :
    bytes = TYPE_RADIX ::
      jtApply (presOf r) (valOf r m) (17 + (write_vlq (linkTOf r m)).length)
        (List.range 16) (List.replicate 16 0) ++
      write_vlq (linkTOf r m) ++
      childPayload (presOf r) (valOf r m) (List.range 16) ∧
    (jtApply (presOf r) (valOf r m) (17 + (write_vlq (linkTOf r m)).length)
      (List.range 16) (List.replicate 16 0)).length = 16 :=
  ⟨radix_write_to_spec r m bytes h, by rw [jtApply_length]; simp⟩

theorem claim_C7_radix_layout_witness :
    Radix.write_to ⟨[3, 0, 0, 0, 0, 0, 0, 0, 0, 0, 0, 0, 0, 0, 0, 0], 7⟩ emptyMap =
      some [2, 18, 0, 0, 0, 0, 0, 0, 0, 0, 0, 0, 0, 0, 0, 0, 0, 7, 3] ∧
    ([2, 18, 0, 0, 0, 0, 0, 0, 0, 0, 0, 0, 0, 0, 0, 0, 0, 7, 3] : List Nat) =
      TYPE_RADIX ::
      jtApply (presOf ⟨[3, 0, 0, 0, 0, 0, 0, 0, 0, 0, 0, 0, 0, 0, 0, 0], 7⟩)
        (valOf ⟨[3, 0, 0, 0, 0, 0, 0, 0, 0, 0, 0, 0, 0, 0, 0, 0], 7⟩ emptyMap)
        (17 + (write_vlq (linkTOf
          ⟨[3, 0, 0, 0, 0, 0, 0, 0, 0, 0, 0, 0, 0, 0, 0, 0], 7⟩ emptyMap)).length)
        (List.range 16) (List.replicate 16 0) ++
      write_vlq (linkTOf ⟨[3, 0, 0, 0, 0, 0, 0, 0, 0, 0, 0, 0, 0, 0, 0, 0], 7⟩
        emptyMap) ++
      childPayload (presOf ⟨[3, 0, 0, 0, 0, 0, 0, 0, 0, 0, 0, 0, 0, 0, 0, 0], 7⟩)
        (valOf ⟨[3, 0, 0, 0, 0, 0, 0, 0, 0, 0, 0, 0, 0, 0, 0, 0], 7⟩ emptyMap)
        (List.range 16) ∧
    (jtApply (presOf ⟨[3, 0, 0, 0, 0, 0, 0, 0, 0, 0, 0, 0, 0, 0, 0, 0], 7⟩)
      (valOf ⟨[3, 0, 0, 0, 0, 0, 0, 0, 0, 0, 0, 0, 0, 0, 0, 0], 7⟩ emptyMap)
      (17 + (write_vlq (linkTOf
        ⟨[3, 0, 0, 0, 0, 0, 0, 0, 0, 0, 0, 0, 0, 0, 0, 0], 7⟩ emptyMap)).length)
      (List.range 16) (List.replicate 16 0)).length = 16 :=
  ⟨by decide,
   (claim_C7_radix_layout ⟨[3, 0, 0, 0, 0, 0, 0, 0, 0, 0, 0, 0, 0, 0, 0, 0], 7⟩
     emptyMap [2, 18, 0, 0, 0, 0, 0, 0, 0, 0, 0, 0, 0, 0, 0, 0, 0, 7, 3]
     (by decide)).1,
   (claim_C7_radix_layout ⟨[3, 0, 0, 0, 0, 0, 0, 0, 0, 0, 0, 0, 0, 0, 0, 0], 7⟩
     emptyMap [2, 18, 0, 0, 0, 0, 0, 0, 0, 0, 0, 0, 0, 0, 0, 0, 0, 7, 3]
     (by decide)).2⟩

/-- C4: no dirty offset is ever emitted.  Under an offset map all of
whose values are clean, every offset field a successful `write_to`
emits (Radix link and children, Leaf key and link, Link next) has gone
through `translate_offset` and is clean in the serialized bytes. -/
theorem claim_C4_no_dirty_emitted (m : Nat → Option Nat)
    (hm : ∀ k w, m k = some w → w < DIRTY_OFFSET) :
    (∀ (r : Radix) (bytes : List Nat), r.write_to m = some bytes →
      translate_offset r.link_offset m = some (linkTOf r m) ∧
      linkTOf r m < DIRTY_OFFSET ∧
      (∀ i, i < 16 → r.offsets.getD i 0 ≠ 0 →
        translate_offset (r.offsets.getD i 0) m = some (valOf r m i) ∧
        valOf r m i < DIRTY_OFFSET) ∧
      bytes = TYPE_RADIX ::
        jtApply (presOf r) (valOf r m) (17 + (write_vlq (linkTOf r m)).length)
          (List.range 16) (List.replicate 16 0) ++
        write_vlq (linkTOf r m) ++
        childPayload (presOf r) (valOf r m) (List.range 16)) ∧
    (∀ (lf : Leaf) (bytes : List Nat), lf.write_to m = some bytes →
      ∃ k l, translate_offset lf.key_offset m = some k ∧
        translate_offset lf.link_offset m = some l ∧
        k < DIRTY_OFFSET ∧ l < DIRTY_OFFSET ∧
        bytes = TYPE_LEAF :: write_vlq k ++ write_vlq l) ∧
    (∀ (lk : Link) (bytes : List Nat), lk.write_to m = some bytes →
      ∃ nx, translate_offset lk.next_link_offset m = some nx ∧
        nx < DIRTY_OFFSET ∧
        bytes = TYPE_LINK :: write_vlq lk.value ++ write_vlq nx) := by
  refine ⟨fun r bytes h => ?_, fun lf bytes h => ?_, fun lk bytes h => ?_⟩
  · have hlink := write_to_link_some r m bytes h
    have hloop : radixWriteLoop r m (List.range 16)
        (TYPE_RADIX :: List.replicate 16 0 ++ write_vlq (linkTOf r m)) =
        some bytes := by
      rw [← radix_write_to_translate r m (linkTOf r m) hlink]
      exact h
    refine ⟨hlink, translate_some_clean m hm _ _ hlink, fun i hi hnz => ?_,
      radix_write_to_spec r m bytes h⟩
    have htr := radixWriteLoop_some r m (List.range 16) _ bytes hloop i
      (List.mem_range.mpr hi) hnz
    exact ⟨htr, translate_some_clean m hm _ _ htr⟩
  · obtain ⟨k, l, h1, h2, h3⟩ := leaf_write_some lf m bytes h
    exact ⟨k, l, h1, h2, translate_some_clean m hm _ _ h1,
      translate_some_clean m hm _ _ h2, h3⟩
  · obtain ⟨nx, h1, h2⟩ := link_write_some lk m bytes h
    exact ⟨nx, h1, translate_some_clean m hm _ _ h1, h2⟩

theorem claim_C4_no_dirty_emitted_witness :
    (∀ k w, emptyMap k = some w → w < DIRTY_OFFSET) ∧
    ((∀ (r : Radix) (bytes : List Nat), r.write_to emptyMap = some bytes →
      translate_offset r.link_offset emptyMap = some (linkTOf r emptyMap) ∧
      linkTOf r emptyMap < DIRTY_OFFSET ∧
      (∀ i, i < 16 → r.offsets.getD i 0 ≠ 0 →
        translate_offset (r.offsets.getD i 0) emptyMap =
          some (valOf r emptyMap i) ∧
        valOf r emptyMap i < DIRTY_OFFSET) ∧
      bytes = TYPE_RADIX ::
        jtApply (presOf r) (valOf r emptyMap)
          (17 + (write_vlq (linkTOf r emptyMap)).length)
          (List.range 16) (List.replicate 16 0) ++
        write_vlq (linkTOf r emptyMap) ++
        childPayload (presOf r) (valOf r emptyMap) (List.range 16)) ∧
    (∀ (lf : Leaf) (bytes : List Nat), lf.write_to emptyMap = some bytes →
      ∃ k l, translate_offset lf.key_offset emptyMap = some k ∧
        translate_offset lf.link_offset emptyMap = some l ∧
        k < DIRTY_OFFSET ∧ l < DIRTY_OFFSET ∧
        bytes = TYPE_LEAF :: write_vlq k ++ write_vlq l) ∧
    (∀ (lk : Link) (bytes : List Nat), lk.write_to emptyMap = some bytes →
      ∃ nx, translate_offset lk.next_link_offset emptyMap = some nx ∧
        nx < DIRTY_OFFSET ∧
        bytes = TYPE_LINK :: write_vlq lk.value ++ write_vlq nx)) :=
  ⟨fun k w h => Option.noConfusion h,
   claim_C4_no_dirty_emitted emptyMap (fun k w h => Option.noConfusion h)⟩

/-- C5: Jump-table correctness.  After a successful `Radix.write_to`,
for each `i` with `offsets[i] != 0` the jump-table byte at
record-relative position `1 + i` equals the record-relative byte
position at which the VLQ of the translated `offsets[i]` begins, and
for `offsets[i] == 0` that byte is `0`. -/
theorem claim_C5_jump_table (r : Radix) (m : Nat → Option Nat) (bytes : List Nat)
    (i : Nat) (h : r.write_to m = some bytes) (hi : i < 16)
    (hlink64 : linkTOf r m < 2 ^ 64)
    (hu64 : ∀ j, j < 16 → valOf r m j < 2 ^ 64) :
    (r.offsets.getD i 0 ≠ 0 →
      bytes.getD (1 + i) 0 =
        childStart (presOf r) (valOf r m) (write_vlq (linkTOf r m)).length i ∧
      ∃ t, bytes.drop (childStart (presOf r) (valOf r m)
        (write_vlq (linkTOf r m)).length i) = write_vlq (valOf r m i) ++ t) ∧
    (r.offsets.getD i 0 = 0 → bytes.getD (1 + i) 0 = 0) := by
  have hb := radix_jt_byte r m bytes i h hi
  have hle := childStart_le_177 (presOf r) (valOf r m)
    (write_vlq (linkTOf r m)).length i (vlq_u64_length_le _ hlink64) hi
    (fun j hj => vlq_u64_length_le _ (hu64 j hj))
  constructor
  · intro hnz
    have hp : presOf r i = true := decide_eq_true hnz
    rw [hb, if_pos hp]
    exact ⟨Nat.mod_eq_of_lt (by omega),
      radix_child_vlq_at r m bytes i h hi hp⟩
  · intro hz
    have hpf : presOf r i = false := decide_eq_false (not_not_intro hz)
    rw [hb, if_neg (by rw [hpf]; exact Bool.false_ne_true)]

theorem claim_C5_jump_table_witness :
    (Radix.write_to ⟨[3, 0, 5, 0, 0, 0, 0, 0, 0, 0, 0, 0, 0, 0, 0, 0], 7⟩ emptyMap =
      some [2, 18, 0, 19, 0, 0, 0, 0, 0, 0, 0, 0, 0, 0, 0, 0, 0, 7, 3, 5] ∧
      (2 : Nat) < 16 ∧
      linkTOf ⟨[3, 0, 5, 0, 0, 0, 0, 0, 0, 0, 0, 0, 0, 0, 0, 0], 7⟩ emptyMap <
        2 ^ 64 ∧
      (∀ j, j < 16 →
        valOf ⟨[3, 0, 5, 0, 0, 0, 0, 0, 0, 0, 0, 0, 0, 0, 0, 0], 7⟩ emptyMap j <
          2 ^ 64) ∧
      ([3, 0, 5, 0, 0, 0, 0, 0, 0, 0, 0, 0, 0, 0, 0, 0] : List Nat).getD 2 0 ≠ 0) ∧
    ([2, 18, 0, 19, 0, 0, 0, 0, 0, 0, 0, 0, 0, 0, 0, 0, 0, 7, 3, 5] :
        List Nat).getD (1 + 2) 0 =
      childStart (presOf ⟨[3, 0, 5, 0, 0, 0, 0, 0, 0, 0, 0, 0, 0, 0, 0, 0], 7⟩)
        (valOf ⟨[3, 0, 5, 0, 0, 0, 0, 0, 0, 0, 0, 0, 0, 0, 0, 0], 7⟩ emptyMap)
        (write_vlq (linkTOf ⟨[3, 0, 5, 0, 0, 0, 0, 0, 0, 0, 0, 0, 0, 0, 0, 0], 7⟩
          emptyMap)).length 2 ∧
    ∃ t, ([2, 18, 0, 19, 0, 0, 0, 0, 0, 0, 0, 0, 0, 0, 0, 0, 0, 7, 3, 5] :
        List Nat).drop
        (childStart (presOf ⟨[3, 0, 5, 0, 0, 0, 0, 0, 0, 0, 0, 0, 0, 0, 0, 0], 7⟩)
          (valOf ⟨[3, 0, 5, 0, 0, 0, 0, 0, 0, 0, 0, 0, 0, 0, 0, 0], 7⟩ emptyMap)
          (write_vlq (linkTOf
            ⟨[3, 0, 5, 0, 0, 0, 0, 0, 0, 0, 0, 0, 0, 0, 0, 0], 7⟩
            emptyMap)).length 2) =
      write_vlq (valOf ⟨[3, 0, 5, 0, 0, 0, 0, 0, 0, 0, 0, 0, 0, 0, 0, 0], 7⟩
        emptyMap 2) ++ t :=
  ⟨⟨by decide, by decide, by decide, by decide, by decide⟩,
   (claim_C5_jump_table ⟨[3, 0, 5, 0, 0, 0, 0, 0, 0, 0, 0, 0, 0, 0, 0, 0], 7⟩
     emptyMap [2, 18, 0, 19, 0, 0, 0, 0, 0, 0, 0, 0, 0, 0, 0, 0, 0, 7, 3, 5] 2
     (by decide) (by decide) (by decide) (by decide)).1 (by decide)⟩

/-- C8: the `u8` cast in the jump-table backfill never truncates: under
`u64` translated offsets every child start position is at most
`1 + 16 + 10 + 15 * 10 = 177 < 256`, so the `% 256` of the cast is the
identity and the written jump byte is the exact position. -/
theorem claim_C8_jump_byte_no_truncation (r : Radix) (m : Nat → Option Nat)
    (bytes : List Nat) (i : Nat) (h : r.write_to m = some bytes) (hi : i < 16)
    (hlink64 : linkTOf r m < 2 ^ 64)
    (hu64 : ∀ j, j < 16 → valOf r m j < 2 ^ 64) :
    childStart (presOf r) (valOf r m) (write_vlq (linkTOf r m)).length i ≤ 177 ∧
    childStart (presOf r) (valOf r m) (write_vlq (linkTOf r m)).length i % 256 =
      childStart (presOf r) (valOf r m) (write_vlq (linkTOf r m)).length i ∧
    (r.offsets.getD i 0 ≠ 0 → bytes.getD (1 + i) 0 =
      childStart (presOf r) (valOf r m) (write_vlq (linkTOf r m)).length i) := by
  have hb := radix_jt_byte r m bytes i h hi
  have hle := childStart_le_177 (presOf r) (valOf r m)
    (write_vlq (linkTOf r m)).length i (vlq_u64_length_le _ hlink64) hi
    (fun j hj => vlq_u64_length_le _ (hu64 j hj))
  refine ⟨hle, Nat.mod_eq_of_lt (by omega), fun hnz => ?_⟩
  have hp : presOf r i = true := decide_eq_true hnz
  rw [hb, if_pos hp]
  exact Nat.mod_eq_of_lt (by omega)

theorem claim_C8_jump_byte_no_truncation_witness :
    (Radix.write_to ⟨[3, 0, 5, 0, 0, 0, 0, 0, 0, 0, 0, 0, 0, 0, 0, 0], 70000⟩
        emptyMap =
      some [2, 20, 0, 21, 0, 0, 0, 0, 0, 0, 0, 0, 0, 0, 0, 0, 0, 240, 162, 4,
        3, 5] ∧
      (2 : Nat) < 16 ∧
      linkTOf ⟨[3, 0, 5, 0, 0, 0, 0, 0, 0, 0, 0, 0, 0, 0, 0, 0], 70000⟩
        emptyMap < 2 ^ 64 ∧
      (∀ j, j < 16 →
        valOf ⟨[3, 0, 5, 0, 0, 0, 0, 0, 0, 0, 0, 0, 0, 0, 0, 0], 70000⟩
          emptyMap j < 2 ^ 64)) ∧
    childStart (presOf ⟨[3, 0, 5, 0, 0, 0, 0, 0, 0, 0, 0, 0, 0, 0, 0, 0], 70000⟩)
      (valOf ⟨[3, 0, 5, 0, 0, 0, 0, 0, 0, 0, 0, 0, 0, 0, 0, 0], 70000⟩ emptyMap)
      (write_vlq (linkTOf ⟨[3, 0, 5, 0, 0, 0, 0, 0, 0, 0, 0, 0, 0, 0, 0, 0],
        70000⟩ emptyMap)).length 2 ≤ 177 ∧
    childStart (presOf ⟨[3, 0, 5, 0, 0, 0, 0, 0, 0, 0, 0, 0, 0, 0, 0, 0], 70000⟩)
      (valOf ⟨[3, 0, 5, 0, 0, 0, 0, 0, 0, 0, 0, 0, 0, 0, 0, 0], 70000⟩ emptyMap)
      (write_vlq (linkTOf ⟨[3, 0, 5, 0, 0, 0, 0, 0, 0, 0, 0, 0, 0, 0, 0, 0],
        70000⟩ emptyMap)).length 2 % 256 =
      childStart (presOf ⟨[3, 0, 5, 0, 0, 0, 0, 0, 0, 0, 0, 0, 0, 0, 0, 0],
        70000⟩)
      (valOf ⟨[3, 0, 5, 0, 0, 0, 0, 0, 0, 0, 0, 0, 0, 0, 0, 0], 70000⟩ emptyMap)
      (write_vlq (linkTOf ⟨[3, 0, 5, 0, 0, 0, 0, 0, 0, 0, 0, 0, 0, 0, 0, 0],
        70000⟩ emptyMap)).length 2 ∧
    (([3, 0, 5, 0, 0, 0, 0, 0, 0, 0, 0, 0, 0, 0, 0, 0] : List Nat).getD 2 0 ≠ 0 →
      ([2, 20, 0, 21, 0, 0, 0, 0, 0, 0, 0, 0, 0, 0, 0, 0, 0, 240, 162, 4, 3, 5] :
          List Nat).getD (1 + 2) 0 =
        childStart (presOf ⟨[3, 0, 5, 0, 0, 0, 0, 0, 0, 0, 0, 0, 0, 0, 0, 0],
          70000⟩)
        (valOf ⟨[3, 0, 5, 0, 0, 0, 0, 0, 0, 0, 0, 0, 0, 0, 0, 0], 70000⟩
          emptyMap)
        (write_vlq (linkTOf ⟨[3, 0, 5, 0, 0, 0, 0, 0, 0, 0, 0, 0, 0, 0, 0, 0],
          70000⟩ emptyMap)).length 2) :=
  ⟨⟨by decide, by decide, by decide, by decide⟩,
   claim_C8_jump_byte_no_truncation
     ⟨[3, 0, 5, 0, 0, 0, 0, 0, 0, 0, 0, 0, 0, 0, 0, 0], 70000⟩ emptyMap
     [2, 20, 0, 21, 0, 0, 0, 0, 0, 0, 0, 0, 0, 0, 0, 0, 0, 240, 162, 4, 3, 5] 2
     (by decide) (by decide) (by decide) (by decide)⟩

/-- C6: read-error conditions.  Each reader fails with the (single,
InvalidData-kind) error exactly when the byte at the offset is not its
discriminator, the buffer ends before the record is fully parsed, or —
for Radix — some non-zero jump-table byte differs from the actual parse
position; in every other case it succeeds. -/
theorem claim_C6_read_error_conditions (buf : List Nat) (off : Nat) :
    ((Radix.read_from buf off = .err ↔ radixReadFails buf off) ∧
      ((∃ x, Radix.read_from buf off = .ok x) ↔ ¬ radixReadFails buf off)) ∧
    ((Leaf.read_from buf off = .err ↔ twoVlqReadFails TYPE_LEAF buf off) ∧
      ((∃ x, Leaf.read_from buf off = .ok x) ↔
        ¬ twoVlqReadFails TYPE_LEAF buf off)) ∧
    ((Link.read_from buf off = .err ↔ twoVlqReadFails TYPE_LINK buf off) ∧
      ((∃ x, Link.read_from buf off = .ok x) ↔
        ¬ twoVlqReadFails TYPE_LINK buf off)) :=
  ⟨radix_read_err_iff buf off, leaf_read_err_iff buf off,
   link_read_err_iff buf off⟩

/-- C9: reader totality.  On every byte buffer and every starting
offset, each reader returns a record or an error — never the modelled
panic outcome (in particular, the `jumptable[i]` slice indexing in the
Radix child loop is always in bounds). -/
theorem claim_C9_reader_totality (buf : List Nat) (off : Nat) :
    ((∃ x, Radix.read_from buf off = .ok x) ∨ Radix.read_from buf off = .err) ∧
    ((∃ x, Leaf.read_from buf off = .ok x) ∨ Leaf.read_from buf off = .err) ∧
    ((∃ x, Link.read_from buf off = .ok x) ∨ Link.read_from buf off = .err) := by
  refine ⟨?_, ?_, ?_⟩
  · by_cases hf : radixReadFails buf off
    · exact Or.inr ((radix_read_err_iff buf off).1.mpr hf)
    · exact Or.inl ((radix_read_err_iff buf off).2.mpr hf)
  · by_cases hf : twoVlqReadFails TYPE_LEAF buf off
    · exact Or.inr ((leaf_read_err_iff buf off).1.mpr hf)
    · exact Or.inl ((leaf_read_err_iff buf off).2.mpr hf)
  · by_cases hf : twoVlqReadFails TYPE_LINK buf off
    · exact Or.inr ((link_read_err_iff buf off).1.mpr hf)
    · exact Or.inl ((link_read_err_iff buf off).2.mpr hf)

/-- C2: lookup-insert consistency.  For any sequence of
`insert(key, value)` operations starting from the empty index,
`lookup(key)` returns exactly the values inserted for that key, newest
first (reverse insertion order). -/
theorem claim_C2_lookup_insert (ops : List (List Nat × Nat)) (key : List Nat)
    (hops : ∀ kv ∈ ops, ∀ b ∈ kv.1, b < 256) (hkey : ∀ b ∈ key, b < 256) :
    lookupIdx (ops.foldl (fun t kv => insertIdx t kv.1 kv.2) emptyIndex) key =
      ((ops.filter (fun kv => decide (kv.1 = key))).map (fun kv => kv.2)).reverse := by
  induction ops using List.reverseRecOn with
  | nil => simpa using lookupIdx_empty key
  | append_singleton ops kv ih =>
    have hops2 : ∀ kv2 ∈ ops, ∀ b ∈ kv2.1, b < 256 :=
      fun kv2 h => hops kv2 (List.mem_append_left _ h)
    have hkv : ∀ b ∈ kv.1, b < 256 :=
      hops kv (List.mem_append_right _ (by simp))
    have hfold : (ops ++ [kv]).foldl (fun t kv => insertIdx t kv.1 kv.2)
        emptyIndex =
        insertIdx (ops.foldl (fun t kv => insertIdx t kv.1 kv.2) emptyIndex)
          kv.1 kv.2 := by
      rw [List.foldl_append]
      rfl
    rw [hfold]
    have hwf := WFT_foldIns ops emptyIndex (by simp [WFT, emptyIndex])
    by_cases hk : kv.1 = key
    · rw [hk, lookupIdx_insertIdx_self _ key kv.2 hwf, ih hops2]
      simp [List.filter_append, hk]
    · have hnib : toNibbles kv.1 ≠ toNibbles key :=
        fun h => hk (toNibbles_inj kv.1 key hkv hkey h)
      rw [lookupIdx_insertIdx_other _ kv.1 key kv.2 hwf hnib, ih hops2]
      simp [List.filter_append, hk]

theorem claim_C2_lookup_insert_witness :
    ((∀ kv ∈ ([([102, 111, 111], 10), ([98, 97, 114], 2), ([102, 111, 111], 20)] :
        List (List Nat × Nat)), ∀ b ∈ kv.1, b < 256) ∧
      (∀ b ∈ ([102, 111, 111] : List Nat), b < 256)) ∧
    lookupIdx
      (([([102, 111, 111], 10), ([98, 97, 114], 2), ([102, 111, 111], 20)] :
          List (List Nat × Nat)).foldl
        (fun t kv => insertIdx t kv.1 kv.2) emptyIndex) [102, 111, 111] =
      ((([([102, 111, 111], 10), ([98, 97, 114], 2), ([102, 111, 111], 20)] :
          List (List Nat × Nat)).filter
        (fun kv => decide (kv.1 = [102, 111, 111]))).map
          (fun kv => kv.2)).reverse :=
  ⟨⟨by decide, by decide⟩,
   claim_C2_lookup_insert
     [([102, 111, 111], 10), ([98, 97, 114], 2), ([102, 111, 111], 20)]
     [102, 111, 111] (by decide) (by decide)⟩

end IndexedLog
